import Mathlib

/-!
Verification of the RuleNavi tree-export and static-site pipeline.

This file gives a shallow embedding, in Lean, of the parts of the
repository that the verified properties talk about:

* `scripts/step2_p00_make_directory_rules.py` — `safe_segment`;
* `scripts/step2_p02_export_tree_json.py` — `pick_label`, `pick_segment`,
  `ensure_child`, `finalize_tree`, and the row loop of `export_tree_json`;
* `src/sitegen/md_html.py` — `md_to_html`;
* `src/sitegen/data.py` — `iter_nodes`, `mark_and_collect_md_targets`.

Modelling conventions, used consistently below:

* Python `str` is Lean `String`; values that can be SQL `NULL` / pandas
  `NaN` are `Option String` (`none` plays the role of null-equivalent
  values; note that `pick_label` and `safe_segment` treat the literal
  text "nan" separately, exactly as the source does).
* Python's `str.strip()` default whitespace set and the regex classes
  `\s` are modelled by the ASCII whitespace characters
  (space, tab, LF, CR, VT, FF); `\w` by ASCII alphanumerics plus
  underscore.  All data handled by the pipeline and all properties
  proved here are insensitive to the non-ASCII part of those classes.
* A chain of single-character `str.replace` calls (or a `re.sub` over a
  character class) whose replacement is `"_"` is a character-wise map,
  and is modelled as such.
* Fallible filesystem queries are modelled by an explicit oracle
  `String → Bool` passed as a parameter; path joining with `/` is
  modelled by string concatenation with `"/"` (the `.resolve()` call of
  `pathlib`, an OS operation, is not modelled).
-/


/-! ## Python string helpers -/


/-- ASCII whitespace: the ASCII part of both Python's `str.strip()`
default set and the regex class `\s`. -/

def isPyWs (c : Char) : Bool :=
  c == ' ' || c == '\t' || c == '\n' || c == '\r' || c == '\x0b' || c == '\x0c'

/-- Python `str.strip()` (both ends, default whitespace). -/

def pyStrip (s : String) : String :=
  String.mk (((s.data.dropWhile isPyWs).reverse.dropWhile isPyWs).reverse)

/-- Python `str.lower()` (character-wise). -/

def toLowerStr (s : String) : String :=
  String.mk (s.data.map Char.toLower)

/-- Python `str.rstrip(" .")`: drop trailing spaces and dots. -/

def rstripSpaceDot (s : String) : String :=
  String.mk ((s.data.reverse.dropWhile (fun c => c == ' ' || c == '.')).reverse)

/-- Replace every character in `bad` by an underscore (a chain of
single-character `str.replace(ch, "_")` calls, or `re.sub` over the
character class `bad`, is exactly this character-wise map). -/

def replaceAllWith (bad : List Char) (s : String) : String :=
  String.mk (s.data.map (fun c => if c ∈ bad then '_' else c))

/-- Python `path.replace("\\", "/")` (character-wise). -/

def normSlash (s : String) : String :=
  String.mk (s.data.map (fun c => if c = '\\' then '/' else c))

/-! ## `scripts/step2_p00_make_directory_rules.py` : `safe_segment` -/


/-- The character class of `re.sub(r'[<>:"/\\|?*]', "_", s)` in
`safe_segment` (step2_p00, lines 65-74). -/

def winForbidden : List Char := ['<', '>', ':', '"', '/', '\\', '|', '?', '*']

/-- `safe_segment` from `scripts/step2_p00_make_directory_rules.py`
(lines 65-74):
`s = "" if s is None else str(s).strip()`;
`if s == "" or s.lower() == "nan": return "_"`;
`s = re.sub(r'[<>:"/\\|?*]', "_", s)`; `s = s.rstrip(" .")`;
`return s[:80] if s else "_"`. -/

def safe_segment (so : Option String) : String :=
  let s := match so with | none => "" | some v => pyStrip v
  if s = "" ∨ toLowerStr s = "nan" then "_"
  else
    let s1 := replaceAllWith winForbidden s
    let s2 := rstripSpaceDot s1
    if s2 = "" then "_" else String.mk (s2.data.take 80)

/-! ## `scripts/step2_p02_export_tree_json.py` : label / segment pickers -/


/-- `pick_label` (step2_p02, lines 151-158): skip `None`, strip, return
the first result that is non-empty and whose lower-casing differs from
"nan"; fall back to `"_"`. -/

def pick_label : List (Option String) → String
  | [] => "_"
  | none :: rest => pick_label rest
  | some c :: rest =>
    let s := pyStrip c
    if s ≠ "" ∧ toLowerStr s ≠ "nan" then s else pick_label rest

/-- The replacement list of `pick_segment` (step2_p02, line 178), in
source order. -/

def segForbidden : List Char :=
  ['\\', '/', ':', '*', '?', '"', '<', '>', '|', '\t', '\n', '\r']

/-- `pick_segment` (step2_p02, lines 175-181): `pick_label`, then replace
each character of `segForbidden` with `"_"`, then `rstrip(" .")`, with
final fallback `"_"`. -/

def pick_segment (cands : List (Option String)) : String :=
  let s0 := pick_label cands
  let s1 := replaceAllWith segForbidden s0
  let s2 := rstripSpaceDot s1
  if s2 = "" then "_" else s2

/-! ## Sanitizer postconditions -/


/-- A segment is "claim-safe" when it is non-empty, contains none of the
nine Windows-forbidden characters, and does not end in a space or a
dot. -/

def segOk (s : String) : Prop :=
  s ≠ "" ∧ (∀ c ∈ s.data, c ∉ winForbidden) ∧
    (∀ c, s.data.getLast? = some c → c ≠ ' ' ∧ c ≠ '.')

/-- The stripped form of an optional input, as `safe_segment` computes it
first. -/

def stripLen (so : Option String) : Nat :=
  match so with
  | none => 0
  | some v => (pyStrip v).data.length

/-! ## Claim C7 : `pick_label` -/


/-- The acceptance test of the `pick_label` loop, as a Boolean predicate
on one candidate: not `None`, non-empty after stripping, and not "nan"
case-insensitively. -/

def labelAccept : Option String → Bool
  | none => false
  | some c => (pyStrip c != "") && (toLowerStr (pyStrip c) != "nan")

/-! ## `src/sitegen/md_html.py` : the Markdown transducer -/


/-- ASCII approximation of the regex class `\w`. -/

def isWordChar (c : Char) : Bool := c.isAlphanum || c == '_'

/-- The newline normalization of `md_to_html` (line 53):
`replace("\r\n", "\n").replace("\r", "\n")`, fused into one left-to-right
pass (the first replace turns each CRLF into LF, the second turns every
remaining CR into LF). -/

def normNl : List Char → List Char
  | [] => []
  | '\r' :: '\n' :: rest => '\n' :: normNl rest
  | '\r' :: rest => '\n' :: normNl rest
  | c :: rest => c :: normNl rest

/-- Python `split("\n")`: split at every LF; the empty string yields
`[""]`. -/

def splitNl : List Char → List (List Char)
  | [] => [[]]
  | '\n' :: rest => [] :: splitNl rest
  | c :: rest =>
    match splitNl rest with
    | [] => [[c]]
    | l :: ls => (c :: l) :: ls

/-- The line list of `md_to_html` (line 53). -/

def linesOf (s : String) : List String := (splitNl (normNl s.data)).map String.mk

/-- One character of the `esc` helper (lines 59-60): the chained
replaces of `&`, `<`, `>` expand each character independently. -/

def escChar (c : Char) : List Char :=
  if c = '&' then ['&', 'a', 'm', 'p', ';']
  else if c = '<' then ['&', 'l', 't', ';']
  else if c = '>' then ['&', 'g', 't', ';']
  else [c]

/-- The `esc` helper of `md_to_html`. -/

def escHtml (s : String) : String := String.mk ((s.data.map escChar).flatten)

/-- The fence test `re.match(r"^```(\w+)?\s*$", line)` (line 71). -/

def isFence (line : String) : Bool :=
  match line.data with
  | '`' :: '`' :: '`' :: rest => (rest.dropWhile isWordChar).all isPyWs
  | _ => false

/-- The bullet test `re.match(r"^\s*[-*]\s+(.*)$", line)` (line 98),
returning the captured group when the line is a bullet line. -/

def bulletContent (line : String) : Option String :=
  match line.data.dropWhile isPyWs with
  | c :: rest =>
    if c = '-' ∨ c = '*' then
      match rest with
      | r :: _ => if isPyWs r then some (String.mk (rest.dropWhile isPyWs)) else none
      | [] => none
    else none
  | [] => none

/-- Python `line.startswith(pre)`, at the character level. -/

def strStarts (pre s : String) : Bool := pre.data.isPrefixOf s.data

/-- Python `line[n:]`, at the character level. -/

def strDropN (n : Nat) (s : String) : String := String.mk (s.data.drop n)

/-- The two state booleans of the `md_to_html` loop. -/

structure MdState where
  inCode : Bool
  listOpen : Bool
deriving DecidableEq

/-- The `close_list` helper (lines 63-67): the emitted output (the state
change is folded into each branch of `mdStep`). -/

def clOut (st : MdState) : List String := if st.listOpen then ["</ul>"] else []

/-- One iteration of the `for line in lines` loop of `md_to_html`
(lines 70-112): the branch order, emitted strings and state updates
mirror the source exactly; `close_list()` contributes `clOut st` to the
output and `listOpen := false` to the state. -/

def mdStep (st : MdState) (line : String) : MdState × List String :=
  if isFence line then
    if st.inCode = false then
      (⟨true, false⟩, clOut st ++ ["<pre><code>"])
    else
      (⟨false, st.listOpen⟩, ["</code></pre>"])
  else if st.inCode then
    (st, [escHtml line])
  else if strStarts "### " line then
    (⟨st.inCode, false⟩, clOut st ++ ["<h3>" ++ escHtml (strDropN 4 line) ++ "</h3>"])
  else if strStarts "## " line then
    (⟨st.inCode, false⟩, clOut st ++ ["<h2>" ++ escHtml (strDropN 3 line) ++ "</h2>"])
  else if strStarts "# " line then
    (⟨st.inCode, false⟩, clOut st ++ ["<h1>" ++ escHtml (strDropN 2 line) ++ "</h1>"])
  else
    match bulletContent line with
    | some body =>
      if st.listOpen then (st, ["<li>" ++ escHtml body ++ "</li>"])
      else (⟨st.inCode, true⟩, ["<ul>", "<li>" ++ escHtml body ++ "</li>"])
    | none =>
      if pyStrip line = "" then
        (⟨st.inCode, false⟩, clOut st ++ ["<div class=\x27sp\x27></div>"])
      else
        (⟨st.inCode, false⟩, clOut st ++ ["<p>" ++ escHtml line ++ "</p>"])

/-- The whole loop, threading the state and concatenating the output. -/

def mdRun : MdState → List String → MdState × List String
  | st, [] => (st, [])
  | st, l :: ls =>
    let p := mdStep st l
    let q := mdRun p.1 ls
    (q.1, p.2 ++ q.2)

/-- The complete output item list of `md_to_html`: the loop output
followed by the final `close_list()` (line 114) and the unterminated
code-fence recovery (lines 115-116). -/

def mdItems (md : String) : List String :=
  let r := mdRun ⟨false, false⟩ (linesOf md)
  r.2 ++ clOut r.1 ++ (if r.1.inCode then ["</code></pre>"] else [])

/-- `md_to_html` (lines 52-117): `"\n".join(out)`. -/

def md_to_html (md : String) : String := String.intercalate "\n" (mdItems md)

/-! ## Claim C10 : tag balance of the emitted item list -/


/-- The subsequence of an item list consisting of the two given tag
strings. -/

def tagsOf (o c : String) (l : List String) : List String :=
  l.filter (fun s => s == o || s == c)

/-- `n` alternating open/close tag pairs. -/

def tagPairs (o c : String) : Nat → List String
  | 0 => []
  | n + 1 => o :: c :: tagPairs o c n

/-- A pending open tag, when the corresponding state flag is set. -/

def openSuf (o : String) (b : Bool) : List String := if b then [o] else []

/-! ## `scripts/step2_p02_export_tree_json.py` : the tree builder

A tree node in the source is a dict `{"label", "path", "children"}` plus
a build-time map `_map` from composite keys to child nodes.  `_map[k]`
and the entry of `children` are the *same* dict object, appended
together (lines 111-113) and never removed, so the pair (children list,
map) is faithfully represented by a single association list
`children : List (String × RNode)` in insertion order: a map lookup is
`lookupKey`, and a mutation of the child reached through the map is a
replacement of its entry in the keyed list (`replaceKey`). -/


inductive RNode where
  | mk (label : String) (path : String) (children : List (String × RNode))
deriving Repr

def RNode.label : RNode → String
  | .mk l _ _ => l

def RNode.path : RNode → String
  | .mk _ p _ => p

def RNode.children : RNode → List (String × RNode)
  | .mk _ _ c => c

instance : Inhabited RNode := ⟨.mk "" "" []⟩

/-- Lookup `key in parent["_map"]` (line 109). -/

def lookupKey : List (String × RNode) → String → Option RNode
  | [], _ => none
  | (k, v) :: tl, key => if k = key then some v else lookupKey tl key

/-- In-place mutation of the child registered under `key`, rendered
functionally: replace its entry in the keyed children list. -/

def replaceKey : List (String × RNode) → String → RNode → List (String × RNode)
  | [], _, _ => []
  | (k, v) :: tl, key, nv => if k = key then (k, nv) :: tl else (k, v) :: replaceKey tl key nv

/-- The node literal of `ensure_child` (line 111):
`{"label": label, "path": path.replace("\\", "/"), "children": []}`. -/

def mkNode (label path : String) : RNode := .mk label (normSlash path) []

/-- `ensure_child` (lines 103-114): return the registered child for
`key` if present, else create, register and append a fresh node.  The
result is the pair (updated parent, returned child). -/

def ensure_child (parent : RNode) (key label path : String) : RNode × RNode :=
  match lookupKey parent.children key with
  | some c => (parent, c)
  | none =>
    let node := mkNode label path
    (.mk parent.label parent.path (parent.children ++ [(key, node)]), node)

/-- One key/label/path triple for one `ensure_child` call. -/

structure KLP where
  key : String
  label : String
  path : String

/-- The chain `n_type = ensure_child(root, ...)`,
`n_major = ensure_child(n_type, ...)`, ... (lines 352-358): each
`ensure_child` call looks up or creates one level, and the deeper calls
mutate the returned child, which the keyed-list representation renders
by writing the updated child back into its slot. -/

def insertChain : RNode → List KLP → RNode
  | n, [] => n
  | n, e :: rest =>
    match lookupKey n.children e.key with
    | some c => .mk n.label n.path (replaceKey n.children e.key (insertChain c rest))
    | none => .mk n.label n.path (n.children ++ [(e.key, insertChain (mkNode e.label e.path) rest)])

/-- The comparison of `children.sort(key=lambda x: str(x.get("label", "")))`
(line 131). -/

def childLE (a b : String × RNode) : Prop := a.2.label ≤ b.2.label

instance : DecidableRel childLE :=
  fun a b => inferInstanceAs (Decidable (a.2.label ≤ b.2.label))

/-- `finalize_tree` (lines 129-135): sort children by label and recurse
(dropping `_map` is the identity in the keyed-list representation, the
serialized payload reads only label/path/children).  Python's
`list.sort` is a stable sort by the key, hence equal to stable insertion
sort by the same key. -/

def finalize_tree (n : RNode) : RNode :=
  match n with
  | .mk lab pth cs =>
    let sorted := List.insertionSort childLE cs
    .mk lab pth (sorted.attach.map (fun kc => (kc.1.1, finalize_tree kc.1.2)))
termination_by sizeOf n
decreasing_by
  simp_wf
  rename_i lab pth cs
  have hmem : kc.1 ∈ cs := ((List.perm_insertionSort childLE cs).mem_iff).mp kc.2
  have h1 : sizeOf kc.1 < sizeOf cs := List.sizeOf_lt_of_mem hmem
  have h2 : sizeOf kc.1.2 < sizeOf kc.1 := by
    obtain ⟨k0, v0⟩ := kc.1
    simp
  omega

/-- One flat row of the hierarchy query of `export_tree_json`
(lines 274-316): the path/label columns per level, the rule id and name,
and the optional chapter columns (`none` models SQL NULL / pandas
NaN). -/

structure Row where
  type_path : Option String
  type_jp : Option String
  type_en : Option String
  major_path : Option String
  major_jp : Option String
  major_en : Option String
  sub_path : Option String
  sub_jp : Option String
  sub_en : Option String
  id_rule : Option String
  name_rule : Option String
  id_cap : Option String
  title_capter : Option String

/-- `type_seg = pick_segment(row["type_path"], row["type_en"])` (line 333). -/

def typeSeg (r : Row) : String := pick_segment [r.type_path, r.type_en]

/-- `major_seg` (line 334). -/

def majorSeg (r : Row) : String := pick_segment [r.major_path, r.major_en]

/-- `sub_seg` (line 335). -/

def subSeg (r : Row) : String := pick_segment [r.sub_path, r.sub_en]

/-- `rule_seg = pick_segment(row["id_rule"])` (line 336). -/

def ruleSeg (r : Row) : String := pick_segment [r.id_rule]

/-- `cap_seg = pick_segment(row["id_cap"]) if pd.notna(row["id_cap"]) else ""`
(line 337). -/

def capSeg (r : Row) : String :=
  match r.id_cap with | none => "" | some _ => pick_segment [r.id_cap]

/-- `type_label = pick_label(row["type_jp"], row["type_en"], type_seg)`
(line 339). -/

def typeLabel (r : Row) : String := pick_label [r.type_jp, r.type_en, some (typeSeg r)]

/-- `major_label` (line 340). -/

def majorLabel (r : Row) : String := pick_label [r.major_jp, r.major_en, some (majorSeg r)]

/-- `sub_label` (line 341). -/

def subLabel (r : Row) : String := pick_label [r.sub_jp, r.sub_en, some (subSeg r)]

/-- `rule_label = pick_label(row["name_rule"], row["id_rule"])` (line 342). -/

def ruleLabel (r : Row) : String := pick_label [r.name_rule, r.id_rule]

/-- `cap_label = pick_label(row["title_capter"], row["id_cap"])` (line 343,
used only when a chapter child is created). -/

def capLabel (r : Row) : String := pick_label [r.title_capter, r.id_cap]

/-- `type_path = f"{prefix}/{type_seg}"` (line 346). -/

def typePath (pfx : String) (r : Row) : String := pfx ++ "/" ++ typeSeg r

/-- `major_path = f"{prefix}/{type_seg}/{major_seg}"` (line 347). -/

def majorPath (pfx : String) (r : Row) : String := typePath pfx r ++ "/" ++ majorSeg r

/-- `sub_path` (line 348). -/

def subPath (pfx : String) (r : Row) : String := majorPath pfx r ++ "/" ++ subSeg r

/-- `rule_path` (line 349). -/

def rulePath (pfx : String) (r : Row) : String := subPath pfx r ++ "/" ++ ruleSeg r

/-- `cap_path = f"{rule_path}/{cap_seg}"` (line 350). -/

def capPath (pfx : String) (r : Row) : String := rulePath pfx r ++ "/" ++ capSeg r

/-- The per-row `ensure_child` argument list of the `df.iterrows()`
loop (lines 332-358): one key/label/path triple per level, the chapter
level appended only when `cap_seg` is non-empty (line 357). -/

def rowChain (pfx : String) (r : Row) : List KLP :=
  ⟨"type:" ++ typeSeg r, typeLabel r, typePath pfx r⟩ ::
  ⟨"major:" ++ majorSeg r, majorLabel r, majorPath pfx r⟩ ::
  ⟨"sub:" ++ subSeg r, subLabel r, subPath pfx r⟩ ::
  ⟨"rule:" ++ ruleSeg r, ruleLabel r, rulePath pfx r⟩ ::
  (if capSeg r ≠ "" then [⟨"cap:" ++ capSeg r, capLabel r, capPath pfx r⟩] else [])

/-- The synthetic root (line 320). -/

def rootNode : RNode := .mk "__root__" "" []

/-- The full row loop (lines 332-358). -/

def buildRoot (pfx : String) (rows : List Row) : RNode :=
  rows.foldl (fun acc r => insertChain acc (rowChain pfx r)) rootNode

/-- The forest `export_tree_json` serializes (lines 360-366):
`finalize_tree(root)` followed by `root["children"]`.  `pfx` is the
configured `rules_dir`/`rules_file_dir` base path (lines 323-329); the
JSON file writing itself is not modelled. -/

def export_tree_json (pfx : String) (rows : List Row) : List (String × RNode) :=
  (finalize_tree (buildRoot pfx rows)).children

/-- Reachability along `children` edges. -/

inductive Reach : RNode → RNode → Prop where
  | refl (n : RNode) : Reach n n
  | step {n m : RNode} {kc : String × RNode} (hm : kc ∈ n.children) (h : Reach kc.2 m) :
      Reach n m

/-! ## Claim C3 : children sorted after `finalize_tree` -/


instance : IsTotal (String × RNode) childLE :=
  ⟨fun a b => le_total a.2.label b.2.label⟩

instance : IsTrans (String × RNode) childLE :=
  ⟨fun _ _ _ h1 h2 => le_trans h1 h2⟩

/-- Two concrete rows, equal except for the rule id. -/

def rowW1 : Row :=
  ⟨some "T", none, none, some "M", none, none, some "S", none, none,
    some "R1", none, none, none⟩

def rowW2 : Row :=
  ⟨some "T", none, none, some "M", none, none, some "S", none, none,
    some "R2", none, none, none⟩

/-- Two concrete rows whose rule ids differ but sanitize to the same
segment `"a_"`. -/

def rowCexA : Row :=
  ⟨some "T", none, none, some "M", none, none, some "S", none, none,
    some "a?", none, none, none⟩

def rowCexB : Row :=
  ⟨some "T", none, none, some "M", none, none, some "S", none, none,
    some "a*", none, none, none⟩

/-! ## Claim C8 : the path invariant of the exported forest -/


/-- No colon among the characters (composite-key tags and sanitized
segments). -/

def noColon (s : String) : Prop := ∀ c ∈ s.data, c ≠ ':'

/-- No backslash among the characters. -/

def noBS (s : String) : Prop := ∀ c ∈ s.data, c ≠ '\\'

/-- A sanitized path segment: non-empty and free of separators. -/

def goodSeg (s : String) : Prop := s ≠ "" ∧ ∀ c ∈ s.data, c ≠ '/' ∧ c ≠ '\\'

/-- Shape of one child entry: its key is `tag ++ ":" ++ seg` for a
colon-free tag and a sanitized segment, and its stored path extends
`base` by exactly that segment. -/

def ChildShape (base : String) (kc : String × RNode) : Prop :=
  ∃ tag seg, noColon tag ∧ noColon seg ∧ goodSeg seg ∧
    kc.1 = tag ++ ":" ++ seg ∧ kc.2.path = base ++ "/" ++ seg

/-- The path invariant: every child of `n` extends `base` by one
sanitized segment, and recursively every deeper child extends its own
parent's stored path. -/

inductive InvFrom : String → RNode → Prop where
  | mk : ∀ (base : String) (n : RNode),
      (∀ kc ∈ n.children, ChildShape base kc) →
      (∀ kc ∈ n.children, InvFrom kc.2.path kc.2) →
      InvFrom base n

/-- Well-formedness of an `ensure_child` argument chain relative to its
anchor path. -/

def ChainOk : String → List KLP → Prop
  | _, [] => True
  | base, e :: rest =>
    ∃ tag seg, noColon tag ∧ noColon seg ∧ goodSeg seg ∧
      e.key = tag ++ ":" ++ seg ∧ e.path = base ++ "/" ++ seg ∧ noBS e.path ∧
      ChainOk e.path rest

/-! ## `src/sitegen/data.py` : body marking and Markdown targets

A `tree.json` node is a dict `{"label", "path", "children"}`; the
marking pass adds the `has_body` key.  `JNode` carries the `hasBody`
field from the start; its input value is irrelevant because the pass
overwrites it at every node.  The filesystem test
`md_path.exists() and md_path.is_file()` is the oracle `fs`, and
`build_dir / rel / md_name` is string joining with `/`
(`.resolve()` is an OS operation and is not modelled). -/


inductive JNode where
  | mk (label : String) (path : String) (hasBody : Bool) (children : List JNode)
deriving Repr

def JNode.label : JNode → String
  | .mk l _ _ _ => l

def JNode.path : JNode → String
  | .mk _ p _ _ => p

def JNode.hasBody : JNode → Bool
  | .mk _ _ b _ => b

def JNode.children : JNode → List JNode
  | .mk _ _ _ c => c

instance : Inhabited JNode := ⟨.mk "" "" false []⟩

/-- `build_dir / rel / md_name` (lines 119-120). -/

def jmdPath (bd rel mdName : String) : String := bd ++ "/" ++ rel ++ "/" ++ mdName

/-- The `has_body` decision of the loop body (lines 114-127): `False`
for a blank path, else whether a regular file exists at the joined
Markdown path. -/

def bodyFlag (fs : String → Bool) (bd mdName pth : String) : Bool :=
  if pyStrip pth = "" then false
  else fs (jmdPath bd (pyStrip pth) mdName)

/-- `iter_nodes` (data.py lines 64-72), as the explicit stack loop.
Python's `stack.pop()` removes the *end* of the list; representing the
stack with its top at the head, the initial `stack = list(tree)` is
`tree.reverse`, and the `for c in reversed(children): stack.append(c)`
block pushes the children onto the head in their original order. -/

def iterLoop : List JNode → List JNode
  | [] => []
  | n :: stack => n :: iterLoop (n.children ++ stack)
termination_by stack => sizeOf stack
decreasing_by
  have h1 : ∀ l1 l2 : List JNode, sizeOf (l1 ++ l2) + 1 = sizeOf l1 + sizeOf l2 := by
    intro l1 l2
    induction l1 with
    | nil => simp only [List.nil_append, List.nil.sizeOf_spec]; omega
    | cons a tl ih => simp only [List.cons_append, List.cons.sizeOf_spec]; omega
  have h2 : sizeOf n.children < sizeOf n := by
    cases n with
    | mk l p b c => simp [JNode.children]
  have h3 := h1 n.children stack
  simp only [List.cons.sizeOf_spec]
  omega

/-- `iter_nodes(tree)`: the stack starts as `list(tree)` whose top is
the *last* root, so the forest roots are yielded in reverse order, each
followed by its subtree in pre-order. -/

def iter_nodes (tree : List JNode) : List JNode := iterLoop tree.reverse

/-- Recompute every node's `has_body` flag (the loop mutates each
visited node exactly once, and the flag depends only on the node's own
path, so the mutation pass is this structural map). -/

def markNode (fs : String → Bool) (bd mdName : String) : JNode → JNode
  | .mk lab pth _ cs =>
    .mk lab pth (bodyFlag fs bd mdName pth)
      (cs.attach.map (fun c => markNode fs bd mdName c.1))
termination_by n => sizeOf n
decreasing_by
  simp_wf
  rename_i lab pth hb cs
  have h1 : sizeOf c.1 < sizeOf cs := List.sizeOf_lt_of_mem c.2
  omega

/-- The `targets.append((n, md_path))` decisions of the loop body
(lines 121-127), for one visited node. -/

def collectBody (fs : String → Bool) (bd mdName : String) (n : JNode) :
    List (JNode × String) :=
  if pyStrip n.path = "" then []
  else if fs (jmdPath bd (pyStrip n.path) mdName) then
    [(n, jmdPath bd (pyStrip n.path) mdName)]
  else []

/-- The target collection over the iteration stack. -/

def collectLoop (fs : String → Bool) (bd mdName : String) :
    List JNode → List (JNode × String)
  | [] => []
  | n :: stack => collectBody fs bd mdName n ++ collectLoop fs bd mdName (n.children ++ stack)
termination_by stack => sizeOf stack
decreasing_by
  have h1 : ∀ l1 l2 : List JNode, sizeOf (l1 ++ l2) + 1 = sizeOf l1 + sizeOf l2 := by
    intro l1 l2
    induction l1 with
    | nil => simp only [List.nil_append, List.nil.sizeOf_spec]; omega
    | cons a tl ih => simp only [List.cons_append, List.cons.sizeOf_spec]; omega
  have h2 : sizeOf n.children < sizeOf n := by
    cases n with
    | mk l p b c => simp [JNode.children]
  have h3 := h1 n.children stack
  simp only [List.cons.sizeOf_spec]
  omega

/-- `mark_and_collect_md_targets` (data.py lines 103-129): set every
node's `has_body` and collect the `(node, md_path)` pairs in iteration
order.  The dicts appended to `targets` are the same objects later
finished by the marking of their descendants, so the collected pairs
carry the fully marked nodes: the collection runs over the marked
forest (the append condition reads only the node's path, which marking
preserves). The node count the source also returns is not modelled. -/

def mark_and_collect_md_targets (fs : String → Bool) (bd mdName : String)
    (tree : List JNode) : List JNode × List (JNode × String) :=
  let marked := tree.map (markNode fs bd mdName)
  (marked, collectLoop fs bd mdName marked.reverse)

/-- Reachability along `children` edges of `tree.json` nodes. -/

inductive JReach : JNode → JNode → Prop where
  | refl (n : JNode) : JReach n n
  | step {n m c : JNode} (hm : c ∈ n.children) (h : JReach c m) : JReach n m

/-- A node is consistently marked: its flag agrees with `bodyFlag`, and
so do all its descendants. -/

inductive IsMarked (fs : String → Bool) (bd mdName : String) : JNode → Prop where
  | mk : ∀ n : JNode, n.hasBody = bodyFlag fs bd mdName n.path →
      (∀ c ∈ n.children, IsMarked fs bd mdName c) → IsMarked fs bd mdName n

/-! ## Theorems -/

/-- Membership survives `dropWhile`. -/

theorem mem_of_mem_dropWhile {p : Char → Bool} {a : Char} :
    ∀ {l : List Char}, a ∈ l.dropWhile p → a ∈ l := by
  intro l
  induction l with
  | nil => simp [List.dropWhile]
  | cons c tl ih =>
    simp only [List.dropWhile]
    intro h
    by_cases hc : p c
    · simp only [hc] at h
      exact List.mem_cons_of_mem _ (ih h)
    · simp only [hc] at h
      simpa using h

/-- The head of `dropWhile p` does not satisfy `p`. -/

theorem head_dropWhile_false {p : Char → Bool} :
    ∀ {l : List Char} {c : Char}, (l.dropWhile p).head? = some c → p c = false := by
  intro l
  induction l with
  | nil => simp [List.dropWhile]
  | cons d tl ih =>
    intro c
    simp only [List.dropWhile]
    by_cases hd : p d
    · simp only [hd]
      exact fun h => ih h
    · simp only [hd]
      intro h
      cases h
      simpa using hd

/-- Characters of `rstripSpaceDot s` come from `s`. -/

theorem rstrip_mem {s : String} {c : Char} :
    c ∈ (rstripSpaceDot s).data → c ∈ s.data := by
  intro h
  simp only [rstripSpaceDot] at h
  have h1 : c ∈ s.data.reverse.dropWhile (fun c => c == ' ' || c == '.') :=
    List.mem_reverse.mp h
  have h2 := mem_of_mem_dropWhile h1
  exact List.mem_reverse.mp h2

/-- The last character of `rstripSpaceDot s` is neither a space nor a
dot. -/

theorem rstrip_last {s : String} {c : Char} :
    (rstripSpaceDot s).data.getLast? = some c → c ≠ ' ' ∧ c ≠ '.' := by
  intro h
  simp only [rstripSpaceDot] at h
  rw [List.getLast?_reverse] at h
  have := head_dropWhile_false h
  simp only [Bool.or_eq_false_iff, beq_eq_false_iff_ne] at this
  exact this

/-- Characters of `replaceAllWith bad s` avoid `bad`, provided the
underscore is not itself in `bad`. -/

theorem replaceAll_not_mem (bad : List Char) (hu : '_' ∉ bad) {s : String} :
    ∀ c ∈ (replaceAllWith bad s).data, c ∉ bad := by
  intro c hc
  simp only [replaceAllWith, List.mem_map] at hc
  obtain ⟨a, _, ha⟩ := hc
  by_cases hm : a ∈ bad
  · simp only [hm, if_pos] at ha
    subst ha
    exact hu
  · simp only [hm, if_neg hm] at ha
    subst ha
    exact hm

theorem mkStr_ne_empty {l : List Char} (h : l ≠ []) : String.mk l ≠ "" := by
  intro he
  apply h
  have : (String.mk l).data = ("" : String).data := by rw [he]
  simpa using this

/-- `pick_segment` satisfies the full sanitizer postcondition for every
input. -/

theorem pick_segment_ok (cands : List (Option String)) : segOk (pick_segment cands) := by
  unfold pick_segment
  set s1 := replaceAllWith segForbidden (pick_label cands) with hs1
  by_cases h : rstripSpaceDot s1 = ""
  · simp only [h, if_pos rfl]
    refine ⟨by decide, by decide, by decide⟩
  · rw [if_neg h]
    refine ⟨h, ?_, fun c hc => rstrip_last hc⟩
    intro c hc
    have h2 := rstrip_mem hc
    have h3 := replaceAll_not_mem segForbidden (by decide) c h2
    intro hw
    apply h3
    simp only [winForbidden, List.mem_cons, List.not_mem_nil, or_false] at hw
    rcases hw with h | h | h | h | h | h | h | h | h <;> subst h <;> decide

theorem dropWhile_length_le {p : Char → Bool} :
    ∀ l : List Char, (l.dropWhile p).length ≤ l.length := by
  intro l
  induction l with
  | nil => simp [List.dropWhile]
  | cons c tl ih =>
    simp only [List.dropWhile]
    by_cases hc : p c
    · simp only [hc]
      exact Nat.le_succ_of_le ih
    · simp only [hc]
      exact Nat.le_refl _

/-- `rstripSpaceDot` does not lengthen a string. -/

theorem rstrip_length_le (s : String) :
    (rstripSpaceDot s).data.length ≤ s.data.length := by
  simp only [rstripSpaceDot, List.length_reverse]
  calc (s.data.reverse.dropWhile _).length ≤ s.data.reverse.length :=
        dropWhile_length_le _
    _ = s.data.length := List.length_reverse _

/-- `replaceAllWith` preserves length. -/

theorem replaceAll_length (bad : List Char) (s : String) :
    (replaceAllWith bad s).data.length = s.data.length := by
  simp [replaceAllWith]

/-- Amended sanitizer totality (claim C1, amended): `safe_segment` always
returns a non-empty string free of the nine forbidden characters, and
additionally does not end in a space or a dot whenever the stripped input
fits in the 80-character bound (the truncation `s[:80]`, applied after
`rstrip(" .")`, can otherwise re-expose a trailing space or dot);
`pick_segment` of the tree exporter satisfies the full postcondition for
every input. -/

theorem sanitizer_postcondition :
    (∀ so, safe_segment so ≠ "" ∧ ∀ c ∈ (safe_segment so).data, c ∉ winForbidden)
    ∧ (∀ so, stripLen so ≤ 80 →
        ∀ c, (safe_segment so).data.getLast? = some c → c ≠ ' ' ∧ c ≠ '.')
    ∧ (∀ cands, segOk (pick_segment cands)) := by
  have hu : ∀ s : String, (∀ c, ("_" : String).data.getLast? = some c → c ≠ ' ' ∧ c ≠ '.') := by
    intro _ c h
    have : c = '_' := by
      have h2 : some '_' = some c := h
      cases h2
      rfl
    subst this
    exact ⟨by decide, by decide⟩
  have hnone : safe_segment none = "_" := by decide
  have hsent : ∀ v : String, (pyStrip v = "" ∨ toLowerStr (pyStrip v) = "nan") →
      safe_segment (some v) = "_" := by
    intro v h1
    simp only [safe_segment]
    rw [if_pos h1]
  have hmain : ∀ v : String, ¬(pyStrip v = "" ∨ toLowerStr (pyStrip v) = "nan") →
      rstripSpaceDot (replaceAllWith winForbidden (pyStrip v)) ≠ "" →
      safe_segment (some v) =
        String.mk ((rstripSpaceDot (replaceAllWith winForbidden (pyStrip v))).data.take 80) := by
    intro v h1 h2
    simp only [safe_segment]
    rw [if_neg h1, if_neg h2]
  have hsent2 : ∀ v : String, ¬(pyStrip v = "" ∨ toLowerStr (pyStrip v) = "nan") →
      rstripSpaceDot (replaceAllWith winForbidden (pyStrip v)) = "" →
      safe_segment (some v) = "_" := by
    intro v h1 h2
    simp only [safe_segment]
    rw [if_neg h1, if_pos h2]
  refine ⟨?_, ?_, pick_segment_ok⟩
  · intro so
    cases so with
    | none =>
      rw [hnone]
      exact ⟨by decide, by decide⟩
    | some v =>
      by_cases h1 : pyStrip v = "" ∨ toLowerStr (pyStrip v) = "nan"
      · rw [hsent v h1]
        exact ⟨by decide, by decide⟩
      · set s2 := rstripSpaceDot (replaceAllWith winForbidden (pyStrip v)) with hs2
        by_cases h2 : s2 = ""
        · rw [hsent2 v h1 h2]
          exact ⟨by decide, by decide⟩
        · rw [hmain v h1 h2]
          constructor
          · apply mkStr_ne_empty
            have hd : s2.data ≠ [] := by
              intro hnil
              apply h2
              have he : s2 = String.mk s2.data := by cases s2; rfl
              rw [he, hnil]
            obtain ⟨a, tl, hl⟩ := List.exists_cons_of_ne_nil hd
            rw [hl]
            simp
          · intro c hc
            have hsub : c ∈ s2.data := List.mem_of_mem_take hc
            have hm := rstrip_mem hsub
            exact replaceAll_not_mem winForbidden (by decide) c hm
  · intro so hlen
    cases so with
    | none =>
      rw [hnone]
      exact hu ""
    | some v =>
      by_cases h1 : pyStrip v = "" ∨ toLowerStr (pyStrip v) = "nan"
      · rw [hsent v h1]
        exact hu ""
      · set s2 := rstripSpaceDot (replaceAllWith winForbidden (pyStrip v)) with hs2
        by_cases h2 : s2 = ""
        · rw [hsent2 v h1 h2]
          exact hu ""
        · rw [hmain v h1 h2]
          have hlen2 : s2.data.length ≤ 80 := by
            have ha : s2.data.length ≤ (replaceAllWith winForbidden (pyStrip v)).data.length :=
              rstrip_length_le _
            have hb : (replaceAllWith winForbidden (pyStrip v)).data.length
                = (pyStrip v).data.length := replaceAll_length _ _
            have hc : (pyStrip v).data.length ≤ 80 := by simpa [stripLen] using hlen
            omega
          rw [List.take_of_length_le hlen2]
          intro c h
          have he : s2 = String.mk s2.data := by cases s2; rfl
          rw [← he] at h
          exact rstrip_last h

/-- Witness for `sanitizer_postcondition` at a concrete input. -/

theorem sanitizer_postcondition_witness :
    stripLen (some "abc") ≤ 80 ∧
      (∀ c, (safe_segment (some "abc")).data.getLast? = some c → c ≠ ' ' ∧ c ≠ '.') :=
  ⟨by decide, sanitizer_postcondition.2.1 (some "abc") (by decide)⟩

/-- Counterexample to claim C1 as stated: for an input of 81 characters
whose 80th character is a dot, `safe_segment` returns a string that ends
in a dot, because the `s[:80]` truncation happens after the
`rstrip(" .")` step. -/

theorem safe_segment_cex :
    (safe_segment (some (String.mk (List.replicate 79 'a' ++ ['.', 'b'])))).data.getLast?
      = some '.' := by decide

/-- Amended claim C7: `pick_label` returns the *stripped form* of the
first candidate (in argument order) that passes the acceptance test, and
the sentinel "_" when every candidate is rejected. -/

theorem pick_label_first (cands : List (Option String)) :
    pick_label cands =
      match cands.find? labelAccept with
      | some (some c) => pyStrip c
      | _ => "_" := by
  induction cands with
  | nil => rfl
  | cons hd tl ih =>
    cases hd with
    | none =>
      simp only [pick_label, List.find?]
      simpa [labelAccept] using ih
    | some c =>
      by_cases hacc : pyStrip c ≠ "" ∧ toLowerStr (pyStrip c) ≠ "nan"
      · have hb : labelAccept (some c) = true := by
          simp only [labelAccept, Bool.and_eq_true, bne_iff_ne]
          exact hacc
        simp only [pick_label, if_pos hacc, List.find?, hb]
      · have hb : labelAccept (some c) = false := by
          simp only [labelAccept, Bool.and_eq_true, bne_iff_ne, Bool.and_eq_false_iff]
          rcases not_and_or.mp hacc with h | h
          · left
            simpa [bne_eq_false_iff_eq] using not_not.mp h
          · right
            simpa [bne_eq_false_iff_eq] using not_not.mp h
        simp only [pick_label, if_neg hacc, List.find?, hb]
        exact ih

/-- Counterexample to claim C7 as stated: the candidate `" x "` passes
the acceptance test (it is the "first candidate" of the claim), but
`pick_label` returns its stripped form `"x"`, not the candidate
itself. -/

theorem pick_label_cex :
    labelAccept (some " x ") = true ∧ pick_label [some " x "] = "x" ∧
      ("x" : String) ≠ " x " := by decide

/-! ## Claim C4 : concrete Markdown round trip -/


/-- Claim C4: on the input `"# Title\n\nBody line\n\n- a\n- b\n"`, the
output of `md_to_html` contains, in this order: an `h1` containing
`Title`, a paragraph-break marker, a `p` containing `Body line`, a list
open tag, the two list items, and the list close tag. -/

theorem md_roundtrip :
    ∃ g0 g1 g2 g3 g4 g5 g6 g7 : String,
      md_to_html "# Title\n\nBody line\n\n- a\n- b\n" =
        g0 ++ "<h1>Title</h1>" ++ g1 ++ "<div class=\x27sp\x27></div>" ++ g2 ++
          "<p>Body line</p>" ++ g3 ++ "<ul>" ++ g4 ++ "<li>a</li>" ++ g5 ++
          "<li>b</li>" ++ g6 ++ "</ul>" ++ g7 := by
  refine ⟨"", "\n", "\n", "\n<div class=\x27sp\x27></div>\n", "\n", "\n", "\n",
    "\n<div class=\x27sp\x27></div>", ?_⟩
  decide

/-! ## Claim C5 : code-fence escaping -/


/-- Claim C5: while inside a code fence, every non-fence line is emitted
HTML-escaped and verbatim, with the state unchanged (so no heading,
bullet, blank-line or paragraph handling applies); concretely, the
fenced input produces the literal escaped text `&lt;tag&gt;&amp;`. -/

theorem code_fence_escape :
    (∀ (st : MdState) (line : String), st.inCode = true → isFence line = false →
        mdStep st line = (st, [escHtml line]))
    ∧ md_to_html "```\n<tag>&\n```" = "<pre><code>\n&lt;tag&gt;&amp;\n</code></pre>" := by
  constructor
  · intro st line hc hf
    simp [mdStep, hf, hc]
  · decide

/-- Witness for `code_fence_escape` at a concrete state and line. -/

theorem code_fence_escape_witness :
    (MdState.mk true false).inCode = true ∧ isFence "x<y" = false ∧
      mdStep ⟨true, false⟩ "x<y" = (⟨true, false⟩, ["x&lt;y"]) := by
  refine ⟨rfl, by decide, ?_⟩
  have h := code_fence_escape.1 ⟨true, false⟩ "x<y" rfl (by decide)
  rw [h]
  decide

theorem strData (a b : String) : (a ++ b).data = a.data ++ b.data := rfl

theorem wrap_data (p e s : String) : (p ++ e ++ s).data = p.data ++ e.data ++ s.data := by
  rw [strData, strData]

/-- `escHtml` output never contains a literal `<`. -/

theorem escHtml_no_lt (s : String) : '<' ∉ (escHtml s).data := by
  intro h
  have h2 : '<' ∈ (s.data.map escChar).flatten := h
  obtain ⟨l, hl, hcl⟩ := List.mem_flatten.mp h2
  obtain ⟨a, _, rfl⟩ := List.mem_map.mp hl
  unfold escChar at hcl
  split_ifs at hcl with ha hb hc <;> simp_all
  exact hb hcl.symm

/-- An escaped line is never one of the four structural tags (each of
which contains `<`). -/

theorem esc_ne_tag {t : String} (s : String) (hm : '<' ∈ t.data) : escHtml s ≠ t :=
  fun he => escHtml_no_lt s (he ▸ hm)

/-- A wrapped item `p ++ e ++ s` differs from any string whose first
three characters differ from those of `p`. -/

theorem wrapped_ne_tag (p t e s : String) (hlen : 3 ≤ p.data.length)
    (h3 : p.data.take 3 ≠ t.data.take 3) : p ++ e ++ s ≠ t := by
  intro he
  apply h3
  have hd := congrArg String.data he
  rw [wrap_data] at hd
  rw [← hd, List.append_assoc]
  exact (List.take_append_of_le_length hlen).symm

theorem tagsOf_nil (o c : String) : tagsOf o c [] = [] := rfl

theorem tagsOf_append (o c : String) (l1 l2 : List String) :
    tagsOf o c (l1 ++ l2) = tagsOf o c l1 ++ tagsOf o c l2 := by
  simp [tagsOf, List.filter_append]

theorem tagsOf_cons_drop {o c s : String} (h1 : s ≠ o) (h2 : s ≠ c) (l : List String) :
    tagsOf o c (s :: l) = tagsOf o c l := by
  simp [tagsOf, List.filter_cons, h1, h2]

theorem tagsOf_cons_o (o c : String) (l : List String) :
    tagsOf o c (o :: l) = o :: tagsOf o c l := by
  simp [tagsOf, List.filter_cons]

theorem tagsOf_cons_c (o c : String) (l : List String) :
    tagsOf o c (c :: l) = c :: tagsOf o c l := by
  simp [tagsOf, List.filter_cons]

theorem tagPairs_add (o c : String) (m n : Nat) :
    tagPairs o c (m + n) = tagPairs o c m ++ tagPairs o c n := by
  induction m with
  | zero => simp [tagPairs]
  | succ k ih => rw [Nat.succ_add, tagPairs, tagPairs, ih]; rfl

/-- One loop iteration preserves the list-tag balance: the pending-open
prefix plus the `<ul>`/`</ul>` tags the step emits form whole pairs
followed by the pending-open marker of the new state. -/

theorem step_ul (ic lo : Bool) (line : String) :
    ∃ n, openSuf "<ul>" lo ++ tagsOf "<ul>" "</ul>" (mdStep ⟨ic, lo⟩ line).2
      = tagPairs "<ul>" "</ul>" n ++ openSuf "<ul>" (mdStep ⟨ic, lo⟩ line).1.listOpen := by
  by_cases hf : isFence line = true
  · cases ic
    · have he : mdStep ⟨false, lo⟩ line
          = (⟨true, false⟩, clOut ⟨false, lo⟩ ++ ["<pre><code>"]) := by
        simp [mdStep, hf]
      rw [he]
      cases lo
      · exact ⟨0, rfl⟩
      · exact ⟨1, rfl⟩
    · have he : mdStep ⟨true, lo⟩ line = (⟨false, lo⟩, ["</code></pre>"]) := by
        simp [mdStep, hf]
      rw [he]
      exact ⟨0, by cases lo <;> rfl⟩
  · cases ic
    · by_cases h3 : strStarts "### " line = true
      · have he : mdStep ⟨false, lo⟩ line = (⟨false, false⟩,
            clOut ⟨false, lo⟩ ++ ["<h3>" ++ escHtml (strDropN 4 line) ++ "</h3>"]) := by
          simp [mdStep, hf, h3]
        rw [he]
        have hne1 := wrapped_ne_tag "<h3>" "<ul>" (escHtml (strDropN 4 line)) "</h3>" (by decide) (by decide)
        have hne2 := wrapped_ne_tag "<h3>" "</ul>" (escHtml (strDropN 4 line)) "</h3>" (by decide) (by decide)
        cases lo
        · exact ⟨0, by simp [openSuf, clOut, tagsOf_cons_drop hne1 hne2, tagsOf_nil, tagPairs]⟩
        · exact ⟨1, by simp [openSuf, clOut, tagsOf_cons_c, tagsOf_cons_drop hne1 hne2,
            tagsOf_nil, tagPairs]⟩
      · by_cases h2 : strStarts "## " line = true
        · have he : mdStep ⟨false, lo⟩ line = (⟨false, false⟩,
              clOut ⟨false, lo⟩ ++ ["<h2>" ++ escHtml (strDropN 3 line) ++ "</h2>"]) := by
            simp [mdStep, hf, h3, h2]
          rw [he]
          have hne1 := wrapped_ne_tag "<h2>" "<ul>" (escHtml (strDropN 3 line)) "</h2>" (by decide) (by decide)
          have hne2 := wrapped_ne_tag "<h2>" "</ul>" (escHtml (strDropN 3 line)) "</h2>" (by decide) (by decide)
          cases lo
          · exact ⟨0, by simp [openSuf, clOut, tagsOf_cons_drop hne1 hne2, tagsOf_nil, tagPairs]⟩
          · exact ⟨1, by simp [openSuf, clOut, tagsOf_cons_c, tagsOf_cons_drop hne1 hne2,
              tagsOf_nil, tagPairs]⟩
        · by_cases h1 : strStarts "# " line = true
          · have he : mdStep ⟨false, lo⟩ line = (⟨false, false⟩,
                clOut ⟨false, lo⟩ ++ ["<h1>" ++ escHtml (strDropN 2 line) ++ "</h1>"]) := by
              simp [mdStep, hf, h3, h2, h1]
            rw [he]
            have hne1 := wrapped_ne_tag "<h1>" "<ul>" (escHtml (strDropN 2 line)) "</h1>" (by decide) (by decide)
            have hne2 := wrapped_ne_tag "<h1>" "</ul>" (escHtml (strDropN 2 line)) "</h1>" (by decide) (by decide)
            cases lo
            · exact ⟨0, by simp [openSuf, clOut, tagsOf_cons_drop hne1 hne2, tagsOf_nil,
                tagPairs]⟩
            · exact ⟨1, by simp [openSuf, clOut, tagsOf_cons_c, tagsOf_cons_drop hne1 hne2,
                tagsOf_nil, tagPairs]⟩
          · rcases hbc : bulletContent line with _ | body
            · by_cases hb : pyStrip line = ""
              · have he : mdStep ⟨false, lo⟩ line = (⟨false, false⟩,
                    clOut ⟨false, lo⟩ ++ ["<div class=\x27sp\x27></div>"]) := by
                  simp [mdStep, hf, h3, h2, h1, hbc, hb]
                rw [he]
                cases lo
                · exact ⟨0, rfl⟩
                · exact ⟨1, rfl⟩
              · have he : mdStep ⟨false, lo⟩ line = (⟨false, false⟩,
                    clOut ⟨false, lo⟩ ++ ["<p>" ++ escHtml line ++ "</p>"]) := by
                  simp [mdStep, hf, h3, h2, h1, hbc, hb]
                rw [he]
                have hne1 := wrapped_ne_tag "<p>" "<ul>" (escHtml line) "</p>" (by decide) (by decide)
                have hne2 := wrapped_ne_tag "<p>" "</ul>" (escHtml line) "</p>" (by decide) (by decide)
                cases lo
                · exact ⟨0, by simp [openSuf, clOut, tagsOf_cons_drop hne1 hne2, tagsOf_nil,
                    tagPairs]⟩
                · exact ⟨1, by simp [openSuf, clOut, tagsOf_cons_c, tagsOf_cons_drop hne1 hne2,
                    tagsOf_nil, tagPairs]⟩
            · have hne1 := wrapped_ne_tag "<li>" "<ul>" (escHtml body) "</li>" (by decide) (by decide)
              have hne2 := wrapped_ne_tag "<li>" "</ul>" (escHtml body) "</li>" (by decide) (by decide)
              cases lo
              · have he : mdStep ⟨false, false⟩ line = (⟨false, true⟩,
                    ["<ul>", "<li>" ++ escHtml body ++ "</li>"]) := by
                  simp [mdStep, hf, h3, h2, h1, hbc]
                rw [he]
                exact ⟨0, by simp [openSuf, tagsOf_cons_o, tagsOf_cons_drop hne1 hne2,
                  tagsOf_nil, tagPairs]⟩
              · have he : mdStep ⟨false, true⟩ line = (⟨false, true⟩,
                    ["<li>" ++ escHtml body ++ "</li>"]) := by
                  simp [mdStep, hf, h3, h2, h1, hbc]
                rw [he]
                exact ⟨0, by simp [openSuf, tagsOf_cons_drop hne1 hne2, tagsOf_nil, tagPairs]⟩
    · have he : mdStep ⟨true, lo⟩ line = (⟨true, lo⟩, [escHtml line]) := by
        simp [mdStep, hf]
      rw [he]
      refine ⟨0, ?_⟩
      rw [tagsOf_cons_drop (esc_ne_tag _ (by decide)) (esc_ne_tag _ (by decide)), tagsOf_nil]
      simp [tagPairs]

theorem ulclose_ne1 : ("</ul>" : String) ≠ "<pre><code>" := by decide

theorem ulclose_ne2 : ("</ul>" : String) ≠ "</code></pre>" := by decide

theorem ulopen_ne1 : ("<ul>" : String) ≠ "<pre><code>" := by decide

theorem ulopen_ne2 : ("<ul>" : String) ≠ "</code></pre>" := by decide

/-- One loop iteration preserves the code-block tag balance, with the
pending-open marker tracking the `inCode` flag. -/

theorem step_code (ic lo : Bool) (line : String) :
    ∃ n, openSuf "<pre><code>" ic
        ++ tagsOf "<pre><code>" "</code></pre>" (mdStep ⟨ic, lo⟩ line).2
      = tagPairs "<pre><code>" "</code></pre>" n
        ++ openSuf "<pre><code>" (mdStep ⟨ic, lo⟩ line).1.inCode := by
  by_cases hf : isFence line = true
  · cases ic
    · have he : mdStep ⟨false, lo⟩ line
          = (⟨true, false⟩, clOut ⟨false, lo⟩ ++ ["<pre><code>"]) := by
        simp [mdStep, hf]
      rw [he]
      exact ⟨0, by cases lo <;> rfl⟩
    · have he : mdStep ⟨true, lo⟩ line = (⟨false, lo⟩, ["</code></pre>"]) := by
        simp [mdStep, hf]
      rw [he]
      exact ⟨1, rfl⟩
  · cases ic
    · by_cases h3 : strStarts "### " line = true
      · have he : mdStep ⟨false, lo⟩ line = (⟨false, false⟩,
            clOut ⟨false, lo⟩ ++ ["<h3>" ++ escHtml (strDropN 4 line) ++ "</h3>"]) := by
          simp [mdStep, hf, h3]
        rw [he]
        have hne1 := wrapped_ne_tag "<h3>" "<pre><code>" (escHtml (strDropN 4 line)) "</h3>" (by decide) (by decide)
        have hne2 := wrapped_ne_tag "<h3>" "</code></pre>" (escHtml (strDropN 4 line)) "</h3>" (by decide) (by decide)
        refine ⟨0, ?_⟩
        cases lo <;>
          simp [openSuf, clOut, tagsOf_cons_drop ulclose_ne1 ulclose_ne2,
            tagsOf_cons_drop hne1 hne2, tagsOf_nil, tagPairs]
      · by_cases h2 : strStarts "## " line = true
        · have he : mdStep ⟨false, lo⟩ line = (⟨false, false⟩,
              clOut ⟨false, lo⟩ ++ ["<h2>" ++ escHtml (strDropN 3 line) ++ "</h2>"]) := by
            simp [mdStep, hf, h3, h2]
          rw [he]
          have hne1 := wrapped_ne_tag "<h2>" "<pre><code>" (escHtml (strDropN 3 line)) "</h2>" (by decide) (by decide)
          have hne2 := wrapped_ne_tag "<h2>" "</code></pre>" (escHtml (strDropN 3 line)) "</h2>" (by decide) (by decide)
          refine ⟨0, ?_⟩
          cases lo <;>
            simp [openSuf, clOut, tagsOf_cons_drop ulclose_ne1 ulclose_ne2,
              tagsOf_cons_drop hne1 hne2, tagsOf_nil, tagPairs]
        · by_cases h1 : strStarts "# " line = true
          · have he : mdStep ⟨false, lo⟩ line = (⟨false, false⟩,
                clOut ⟨false, lo⟩ ++ ["<h1>" ++ escHtml (strDropN 2 line) ++ "</h1>"]) := by
              simp [mdStep, hf, h3, h2, h1]
            rw [he]
            have hne1 := wrapped_ne_tag "<h1>" "<pre><code>" (escHtml (strDropN 2 line)) "</h1>" (by decide) (by decide)
            have hne2 := wrapped_ne_tag "<h1>" "</code></pre>" (escHtml (strDropN 2 line)) "</h1>" (by decide) (by decide)
            refine ⟨0, ?_⟩
            cases lo <;>
              simp [openSuf, clOut, tagsOf_cons_drop ulclose_ne1 ulclose_ne2,
                tagsOf_cons_drop hne1 hne2, tagsOf_nil, tagPairs]
          · rcases hbc : bulletContent line with _ | body
            · by_cases hb : pyStrip line = ""
              · have he : mdStep ⟨false, lo⟩ line = (⟨false, false⟩,
                    clOut ⟨false, lo⟩ ++ ["<div class=\x27sp\x27></div>"]) := by
                  simp [mdStep, hf, h3, h2, h1, hbc, hb]
                rw [he]
                exact ⟨0, by cases lo <;> rfl⟩
              · have he : mdStep ⟨false, lo⟩ line = (⟨false, false⟩,
                    clOut ⟨false, lo⟩ ++ ["<p>" ++ escHtml line ++ "</p>"]) := by
                  simp [mdStep, hf, h3, h2, h1, hbc, hb]
                rw [he]
                have hne1 := wrapped_ne_tag "<p>" "<pre><code>" (escHtml line) "</p>" (by decide) (by decide)
                have hne2 := wrapped_ne_tag "<p>" "</code></pre>" (escHtml line) "</p>" (by decide) (by decide)
                refine ⟨0, ?_⟩
                cases lo <;>
                  simp [openSuf, clOut, tagsOf_cons_drop ulclose_ne1 ulclose_ne2,
                    tagsOf_cons_drop hne1 hne2, tagsOf_nil, tagPairs]
            · have hne1 := wrapped_ne_tag "<li>" "<pre><code>" (escHtml body) "</li>" (by decide) (by decide)
              have hne2 := wrapped_ne_tag "<li>" "</code></pre>" (escHtml body) "</li>" (by decide) (by decide)
              cases lo
              · have he : mdStep ⟨false, false⟩ line = (⟨false, true⟩,
                    ["<ul>", "<li>" ++ escHtml body ++ "</li>"]) := by
                  simp [mdStep, hf, h3, h2, h1, hbc]
                rw [he]
                exact ⟨0, by simp [openSuf, tagsOf_cons_drop ulopen_ne1 ulopen_ne2,
                  tagsOf_cons_drop hne1 hne2, tagsOf_nil, tagPairs]⟩
              · have he : mdStep ⟨false, true⟩ line = (⟨false, true⟩,
                    ["<li>" ++ escHtml body ++ "</li>"]) := by
                  simp [mdStep, hf, h3, h2, h1, hbc]
                rw [he]
                exact ⟨0, by simp [openSuf, tagsOf_cons_drop hne1 hne2, tagsOf_nil, tagPairs]⟩
    · have he : mdStep ⟨true, lo⟩ line = (⟨true, lo⟩, [escHtml line]) := by
        simp [mdStep, hf]
      rw [he]
      refine ⟨0, ?_⟩
      rw [tagsOf_cons_drop (esc_ne_tag _ (by decide)) (esc_ne_tag _ (by decide)), tagsOf_nil]
      simp [tagPairs]

/-- The whole loop preserves the list-tag balance. -/

theorem run_ul (lines : List String) : ∀ st : MdState,
    ∃ n, openSuf "<ul>" st.listOpen ++ tagsOf "<ul>" "</ul>" (mdRun st lines).2
      = tagPairs "<ul>" "</ul>" n ++ openSuf "<ul>" (mdRun st lines).1.listOpen := by
  induction lines with
  | nil => exact fun st => ⟨0, by simp [mdRun, tagsOf_nil, tagPairs]⟩
  | cons l ls ih =>
    intro st
    obtain ⟨ic, lo⟩ := st
    obtain ⟨n1, h1⟩ := step_ul ic lo l
    obtain ⟨n2, h2⟩ := ih (mdStep ⟨ic, lo⟩ l).1
    refine ⟨n1 + n2, ?_⟩
    simp only [mdRun]
    rw [tagsOf_append, ← List.append_assoc, h1, List.append_assoc, h2, tagPairs_add,
      List.append_assoc]

/-- The whole loop preserves the code-tag balance. -/

theorem run_code (lines : List String) : ∀ st : MdState,
    ∃ n, openSuf "<pre><code>" st.inCode
        ++ tagsOf "<pre><code>" "</code></pre>" (mdRun st lines).2
      = tagPairs "<pre><code>" "</code></pre>" n
        ++ openSuf "<pre><code>" (mdRun st lines).1.inCode := by
  induction lines with
  | nil => exact fun st => ⟨0, by simp [mdRun, tagsOf_nil, tagPairs]⟩
  | cons l ls ih =>
    intro st
    obtain ⟨ic, lo⟩ := st
    obtain ⟨n1, h1⟩ := step_code ic lo l
    obtain ⟨n2, h2⟩ := ih (mdStep ⟨ic, lo⟩ l).1
    refine ⟨n1 + n2, ?_⟩
    simp only [mdRun]
    rw [tagsOf_append, ← List.append_assoc, h1, List.append_assoc, h2, tagPairs_add,
      List.append_assoc]

/-- Claim C10: in the item list emitted by `md_to_html`, the
`<ul>`/`</ul>` tags form complete alternating pairs beginning with
`<ul>`, and so do the `<pre><code>`/`</code></pre>` tags: lists and code
blocks left open at end of input are closed before the function
returns. -/

theorem md_tags_balanced (s : String) :
    md_to_html s = String.intercalate "\n" (mdItems s)
    ∧ (∃ n, tagsOf "<ul>" "</ul>" (mdItems s) = tagPairs "<ul>" "</ul>" n)
    ∧ (∃ m, tagsOf "<pre><code>" "</code></pre>" (mdItems s)
        = tagPairs "<pre><code>" "</code></pre>" m) := by
  refine ⟨rfl, ?_, ?_⟩
  · obtain ⟨n, h⟩ := run_ul (linesOf s) ⟨false, false⟩
    simp only [mdItems]
    rw [tagsOf_append, tagsOf_append]
    have hcc : tagsOf "<ul>" "</ul>"
        (if (mdRun ⟨false, false⟩ (linesOf s)).1.inCode then ["</code></pre>"] else [])
        = [] := by
      by_cases hic : (mdRun ⟨false, false⟩ (linesOf s)).1.inCode = true
      · rw [if_pos hic]
        exact tagsOf_cons_drop (by decide) (by decide) []
      · rw [if_neg hic]
        rfl
    rw [hcc, List.append_nil]
    simp only [openSuf, if_neg Bool.false_ne_true, List.nil_append] at h
    by_cases hlo : (mdRun ⟨false, false⟩ (linesOf s)).1.listOpen = true
    · rw [h]
      simp only [clOut, hlo, if_pos rfl, openSuf]
      refine ⟨n + 1, ?_⟩
      rw [tagPairs_add]
      simp [tagsOf_cons_c, tagsOf_nil, tagPairs, List.append_assoc]
    · have hlo' : (mdRun ⟨false, false⟩ (linesOf s)).1.listOpen = false :=
        Bool.not_eq_true _ ▸ Bool.of_not_eq_true hlo
      rw [h, hlo']
      simp only [clOut, hlo', Bool.false_eq_true, if_neg, openSuf, if_false]
      exact ⟨n, by simp [tagsOf_nil]⟩
  · obtain ⟨n, h⟩ := run_code (linesOf s) ⟨false, false⟩
    simp only [mdItems]
    rw [tagsOf_append, tagsOf_append]
    have hcl : tagsOf "<pre><code>" "</code></pre>"
        (clOut (mdRun ⟨false, false⟩ (linesOf s)).1) = [] := by
      by_cases hlo : (mdRun ⟨false, false⟩ (linesOf s)).1.listOpen = true
      · simp only [clOut, hlo, if_pos rfl]
        exact tagsOf_cons_drop ulclose_ne1 ulclose_ne2 []
      · simp only [clOut, hlo, if_neg hlo]
        rfl
    rw [hcl]
    simp only [openSuf, if_neg Bool.false_ne_true, List.nil_append] at h
    by_cases hic : (mdRun ⟨false, false⟩ (linesOf s)).1.inCode = true
    · rw [h]
      simp only [hic, if_pos rfl, openSuf]
      refine ⟨n + 1, ?_⟩
      rw [tagPairs_add]
      simp [tagsOf_cons_c, tagsOf_nil, tagPairs, List.append_assoc]
    · have hic' : (mdRun ⟨false, false⟩ (linesOf s)).1.inCode = false :=
        Bool.not_eq_true _ ▸ Bool.of_not_eq_true hic
      rw [h, hic']
      simp only [openSuf, Bool.false_eq_true, if_neg, if_false]
      exact ⟨n, by simp [tagsOf_nil]⟩

/-! ## Claim C9 : `ensure_child` frame property -/


/-- Claim C9: an `ensure_child` call whose composite key is already
registered returns the parent unchanged together with the existing child
(whose label, path and children are untouched), no matter what label or
path the call supplies — a merged node keeps the label and path of the
first row that created it. -/

theorem ensure_child_noop (parent : RNode) (key label path : String) (c : RNode)
    (h : lookupKey parent.children key = some c) :
    ensure_child parent key label path = (parent, c) := by
  unfold ensure_child
  rw [h]

/-- Witness for `ensure_child_noop` at a concrete parent. -/

theorem ensure_child_noop_witness :
    lookupKey (RNode.mk "r" "" [("k", RNode.mk "L" "P" [])]).children "k"
        = some (RNode.mk "L" "P" []) ∧
      ensure_child (RNode.mk "r" "" [("k", RNode.mk "L" "P" [])]) "k" "other" "elsewhere"
        = (RNode.mk "r" "" [("k", RNode.mk "L" "P" [])], RNode.mk "L" "P" []) :=
  ⟨rfl, ensure_child_noop _ _ _ _ _ rfl⟩

theorem finalize_label (n : RNode) : (finalize_tree n).label = n.label := by
  cases n with
  | mk lab pth cs => simp [finalize_tree, RNode.label]

theorem finalize_path (n : RNode) : (finalize_tree n).path = n.path := by
  cases n with
  | mk lab pth cs => simp [finalize_tree, RNode.path]

theorem finalize_children (lab pth : String) (cs : List (String × RNode)) :
    (finalize_tree (.mk lab pth cs)).children
      = (List.insertionSort childLE cs).map (fun kc => (kc.1, finalize_tree kc.2)) := by
  rw [finalize_tree]
  simp only [RNode.children]
  rw [List.attach_map_val (List.insertionSort childLE cs)
    (fun kc => (kc.1, finalize_tree kc.2))]

/-- The direct children of any finalized node are sorted by label. -/

theorem finalize_children_sorted (n : RNode) :
    List.Sorted (· ≤ ·) ((finalize_tree n).children.map (fun kc => kc.2.label)) := by
  cases n with
  | mk lab pth cs =>
    rw [finalize_children, List.map_map]
    have hs : List.Sorted childLE (List.insertionSort childLE cs) :=
      List.sorted_insertionSort childLE cs
    apply List.Pairwise.map _ _ hs
    intro a b hab
    show ((fun kc => (kc.1, finalize_tree kc.2)) a).2.label
        ≤ ((fun kc => (kc.1, finalize_tree kc.2)) b).2.label
    dsimp only
    rw [finalize_label, finalize_label]
    exact hab

/-- Every node reachable from a finalized tree is itself a finalized
tree. -/

theorem reach_of_finalize : ∀ (k : Nat) (root : RNode), sizeOf root ≤ k →
    ∀ m, Reach (finalize_tree root) m → ∃ n0, m = finalize_tree n0 := by
  intro k
  induction k with
  | zero =>
    intro root hsz
    exfalso
    cases root with
    | mk lab pth cs => simp [RNode.mk.sizeOf_spec] at hsz
  | succ k ih =>
    intro root hsz m h
    cases h with
    | refl => exact ⟨root, rfl⟩
    | @step _ _ kc hm h' =>
      cases root with
      | mk lab pth cs =>
        rw [finalize_children] at hm
        obtain ⟨kc0, hkc0, hkc⟩ := List.mem_map.mp hm
        have hmem : kc0 ∈ cs := (List.perm_insertionSort childLE cs).subset hkc0
        have hsz1 : sizeOf kc0 < sizeOf cs := List.sizeOf_lt_of_mem hmem
        have hsz2 : sizeOf kc0.2 < sizeOf kc0 := by cases kc0; simp
        have hsz3 : sizeOf kc0.2 ≤ k := by
          simp only [RNode.mk.sizeOf_spec] at hsz
          omega
        apply ih kc0.2 hsz3 m
        have : kc.2 = finalize_tree kc0.2 := by rw [← hkc]
        rwa [this] at h'

/-- Claim C3: after `finalize_tree`, every reachable node has its
children's labels in non-decreasing lexicographic order. -/

theorem children_sorted_after_finalize (root m : RNode)
    (h : Reach (finalize_tree root) m) :
    List.Sorted (· ≤ ·) (m.children.map (fun kc => kc.2.label)) := by
  obtain ⟨n0, rfl⟩ := reach_of_finalize (sizeOf root) root (Nat.le_refl _) m h
  exact finalize_children_sorted n0

/-- Witness for `children_sorted_after_finalize` at a concrete tree. -/

theorem children_sorted_after_finalize_witness :
    Reach (finalize_tree rootNode) (finalize_tree rootNode) ∧
      List.Sorted (· ≤ ·)
        ((finalize_tree rootNode).children.map (fun kc => kc.2.label)) :=
  ⟨Reach.refl _, children_sorted_after_finalize rootNode _ (Reach.refl _)⟩

/-! ## Claim C2 : deduplication of shared ancestors -/


theorem strAppend_left_cancel {l a b : String} (h : l ++ a = l ++ b) : a = b := by
  have hd := congrArg String.data h
  rw [strData, strData] at hd
  have h2 := List.append_cancel_left hd
  cases a
  cases b
  exact congrArg String.mk h2

theorem insertChain_empty_children (lab pth : String) (e : KLP) (rest : List KLP) :
    insertChain (.mk lab pth []) (e :: rest)
      = .mk lab pth [(e.key, insertChain (mkNode e.label e.path) rest)] := by
  simp [insertChain, lookupKey, RNode.children, RNode.label, RNode.path]

theorem insertChain_single_found (lab pth : String) (c : RNode) (e : KLP)
    (rest : List KLP) :
    insertChain (.mk lab pth [(e.key, c)]) (e :: rest)
      = .mk lab pth [(e.key, insertChain c rest)] := by
  simp [insertChain, lookupKey, replaceKey, RNode.children, RNode.label, RNode.path]

theorem insertChain_single_notfound (lab pth k : String) (c : RNode) (e : KLP)
    (rest : List KLP) (hne : k ≠ e.key) :
    insertChain (.mk lab pth [(k, c)]) (e :: rest)
      = .mk lab pth [(k, c), (e.key, insertChain (mkNode e.label e.path) rest)] := by
  simp [insertChain, lookupKey, hne, RNode.children, RNode.label, RNode.path]

/-- Inserting two rows that share the first three composite keys but
differ at the fourth produces one merged chain with two children at the
fourth level. -/

theorem insert_two (e1 e2 e3 ea eb : KLP) (ra rb : List KLP)
    (hne : ea.key ≠ eb.key) :
    insertChain (insertChain rootNode (e1 :: e2 :: e3 :: ea :: ra))
        (e1 :: e2 :: e3 :: eb :: rb)
      = RNode.mk "__root__" ""
          [(e1.key, RNode.mk e1.label (normSlash e1.path)
            [(e2.key, RNode.mk e2.label (normSlash e2.path)
              [(e3.key, RNode.mk e3.label (normSlash e3.path)
                [(ea.key, insertChain (mkNode ea.label ea.path) ra),
                 (eb.key, insertChain (mkNode eb.label eb.path) rb)])])])] := by
  have h1 : insertChain rootNode (e1 :: e2 :: e3 :: ea :: ra)
      = RNode.mk "__root__" ""
          [(e1.key, RNode.mk e1.label (normSlash e1.path)
            [(e2.key, RNode.mk e2.label (normSlash e2.path)
              [(e3.key, RNode.mk e3.label (normSlash e3.path)
                [(ea.key, insertChain (mkNode ea.label ea.path) ra)])])])] := by
    rw [show rootNode = RNode.mk "__root__" "" [] from rfl, insertChain_empty_children,
      show mkNode e1.label e1.path = RNode.mk e1.label (normSlash e1.path) [] from rfl,
      insertChain_empty_children,
      show mkNode e2.label e2.path = RNode.mk e2.label (normSlash e2.path) [] from rfl,
      insertChain_empty_children,
      show mkNode e3.label e3.path = RNode.mk e3.label (normSlash e3.path) [] from rfl,
      insertChain_empty_children]
  rw [h1, insertChain_single_found, insertChain_single_found, insertChain_single_found,
    insertChain_single_notfound _ _ _ _ _ _ hne]

theorem finalize_children_single (lab pth k : String) (c : RNode) :
    (finalize_tree (.mk lab pth [(k, c)])).children = [(k, finalize_tree c)] := by
  rw [finalize_children]
  simp [List.insertionSort, List.orderedInsert]

theorem finalize_children_pair (lab pth k1 k2 : String) (c1 c2 : RNode) :
    (finalize_tree (.mk lab pth [(k1, c1), (k2, c2)])).children.Perm
      [(k1, finalize_tree c1), (k2, finalize_tree c2)] := by
  rw [finalize_children]
  have hp := (List.perm_insertionSort childLE [(k1, c1), (k2, c2)]).map
    (fun kc : String × RNode => (kc.1, finalize_tree kc.2))
  simpa using hp

/-- Amended claim C2: for two rows identical in all Type, Major and Sub
path/label columns whose rule ids *sanitize to different segments*, the
exported forest has exactly one Type node, one Major child, one Sub
child, and exactly two rule children (with distinct composite keys)
under that Sub node; the rows reuse the ancestor nodes instead of
duplicating them. -/

theorem dedup_two_rows (pfx : String) (r1 r2 : Row)
    (hT1 : r1.type_path = r2.type_path) (hT2 : r1.type_jp = r2.type_jp)
    (hT3 : r1.type_en = r2.type_en)
    (hM1 : r1.major_path = r2.major_path) (hM2 : r1.major_jp = r2.major_jp)
    (hM3 : r1.major_en = r2.major_en)
    (hS1 : r1.sub_path = r2.sub_path) (hS2 : r1.sub_jp = r2.sub_jp)
    (hS3 : r1.sub_en = r2.sub_en)
    (hR : ruleSeg r1 ≠ ruleSeg r2) :
    ∃ T M S RA RB,
      export_tree_json pfx [r1, r2] = [("type:" ++ typeSeg r1, T)]
      ∧ T.children = [("major:" ++ majorSeg r1, M)]
      ∧ M.children = [("sub:" ++ subSeg r1, S)]
      ∧ S.children.Perm [("rule:" ++ ruleSeg r1, RA), ("rule:" ++ ruleSeg r2, RB)]
      ∧ S.children.length = 2
      ∧ ("rule:" ++ ruleSeg r1) ≠ ("rule:" ++ ruleSeg r2) := by
  have hkne : ("rule:" ++ ruleSeg r1) ≠ ("rule:" ++ ruleSeg r2) :=
    fun h => hR (strAppend_left_cancel h)
  have hts : typeSeg r2 = typeSeg r1 := by unfold typeSeg; rw [← hT1, ← hT3]
  have hms : majorSeg r2 = majorSeg r1 := by unfold majorSeg; rw [← hM1, ← hM3]
  have hss : subSeg r2 = subSeg r1 := by unfold subSeg; rw [← hS1, ← hS3]
  have htl : typeLabel r2 = typeLabel r1 := by unfold typeLabel; rw [← hT2, ← hT3, hts]
  have hml : majorLabel r2 = majorLabel r1 := by unfold majorLabel; rw [← hM2, ← hM3, hms]
  have hsl : subLabel r2 = subLabel r1 := by unfold subLabel; rw [← hS2, ← hS3, hss]
  have hc1 : rowChain pfx r1 =
      ⟨"type:" ++ typeSeg r1, typeLabel r1, typePath pfx r1⟩ ::
      ⟨"major:" ++ majorSeg r1, majorLabel r1, majorPath pfx r1⟩ ::
      ⟨"sub:" ++ subSeg r1, subLabel r1, subPath pfx r1⟩ ::
      ⟨"rule:" ++ ruleSeg r1, ruleLabel r1, rulePath pfx r1⟩ ::
      (if capSeg r1 ≠ "" then [⟨"cap:" ++ capSeg r1, capLabel r1, capPath pfx r1⟩]
       else []) := rfl
  have hc2 : rowChain pfx r2 =
      ⟨"type:" ++ typeSeg r1, typeLabel r1, typePath pfx r1⟩ ::
      ⟨"major:" ++ majorSeg r1, majorLabel r1, majorPath pfx r1⟩ ::
      ⟨"sub:" ++ subSeg r1, subLabel r1, subPath pfx r1⟩ ::
      ⟨"rule:" ++ ruleSeg r2, ruleLabel r2, subPath pfx r1 ++ "/" ++ ruleSeg r2⟩ ::
      (if capSeg r2 ≠ "" then [⟨"cap:" ++ capSeg r2, capLabel r2,
          subPath pfx r1 ++ "/" ++ ruleSeg r2 ++ "/" ++ capSeg r2⟩] else []) := by
    simp only [rowChain, typePath, majorPath, subPath, rulePath, capPath]
    rw [hts, hms, hss, htl, hml, hsl]
  have hexp : export_tree_json pfx [r1, r2]
      = [("type:" ++ typeSeg r1,
          finalize_tree (RNode.mk (typeLabel r1) (normSlash (typePath pfx r1))
            [("major:" ++ majorSeg r1,
              RNode.mk (majorLabel r1) (normSlash (majorPath pfx r1))
                [("sub:" ++ subSeg r1,
                  RNode.mk (subLabel r1) (normSlash (subPath pfx r1))
                    [("rule:" ++ ruleSeg r1,
                      insertChain (mkNode (ruleLabel r1) (rulePath pfx r1))
                        (if capSeg r1 ≠ "" then
                          [⟨"cap:" ++ capSeg r1, capLabel r1, capPath pfx r1⟩] else [])),
                     ("rule:" ++ ruleSeg r2,
                      insertChain
                        (mkNode (ruleLabel r2) (subPath pfx r1 ++ "/" ++ ruleSeg r2))
                        (if capSeg r2 ≠ "" then
                          [⟨"cap:" ++ capSeg r2, capLabel r2,
                            subPath pfx r1 ++ "/" ++ ruleSeg r2 ++ "/" ++ capSeg r2⟩]
                         else []))])])]))] := by
    unfold export_tree_json
    have hb : buildRoot pfx [r1, r2]
        = insertChain (insertChain rootNode (rowChain pfx r1)) (rowChain pfx r2) := rfl
    rw [hb, hc1, hc2,
      insert_two ⟨"type:" ++ typeSeg r1, typeLabel r1, typePath pfx r1⟩
        ⟨"major:" ++ majorSeg r1, majorLabel r1, majorPath pfx r1⟩
        ⟨"sub:" ++ subSeg r1, subLabel r1, subPath pfx r1⟩
        ⟨"rule:" ++ ruleSeg r1, ruleLabel r1, rulePath pfx r1⟩
        ⟨"rule:" ++ ruleSeg r2, ruleLabel r2, subPath pfx r1 ++ "/" ++ ruleSeg r2⟩
        _ _ hkne,
      finalize_children_single]
  refine ⟨_, _, _, _, _, hexp, finalize_children_single _ _ _ _,
    finalize_children_single _ _ _ _, finalize_children_pair _ _ _ _ _ _, ?_, hkne⟩
  have hp := finalize_children_pair (subLabel r1) (normSlash (subPath pfx r1))
    ("rule:" ++ ruleSeg r1) ("rule:" ++ ruleSeg r2)
    (insertChain (mkNode (ruleLabel r1) (rulePath pfx r1))
      (if capSeg r1 ≠ "" then [⟨"cap:" ++ capSeg r1, capLabel r1, capPath pfx r1⟩]
       else []))
    (insertChain (mkNode (ruleLabel r2) (subPath pfx r1 ++ "/" ++ ruleSeg r2))
      (if capSeg r2 ≠ "" then [⟨"cap:" ++ capSeg r2, capLabel r2,
          subPath pfx r1 ++ "/" ++ ruleSeg r2 ++ "/" ++ capSeg r2⟩] else []))
  simpa using hp.length_eq

/-- Witness for `dedup_two_rows` at two concrete rows. -/

theorem dedup_two_rows_witness :
    (rowW1.type_path = rowW2.type_path ∧ rowW1.type_jp = rowW2.type_jp
      ∧ rowW1.type_en = rowW2.type_en ∧ rowW1.major_path = rowW2.major_path
      ∧ rowW1.major_jp = rowW2.major_jp ∧ rowW1.major_en = rowW2.major_en
      ∧ rowW1.sub_path = rowW2.sub_path ∧ rowW1.sub_jp = rowW2.sub_jp
      ∧ rowW1.sub_en = rowW2.sub_en ∧ ruleSeg rowW1 ≠ ruleSeg rowW2)
    ∧ ∃ T M S RA RB,
        export_tree_json "rules" [rowW1, rowW2] = [("type:" ++ typeSeg rowW1, T)]
        ∧ T.children = [("major:" ++ majorSeg rowW1, M)]
        ∧ M.children = [("sub:" ++ subSeg rowW1, S)]
        ∧ S.children.Perm
            [("rule:" ++ ruleSeg rowW1, RA), ("rule:" ++ ruleSeg rowW2, RB)]
        ∧ S.children.length = 2
        ∧ ("rule:" ++ ruleSeg rowW1) ≠ ("rule:" ++ ruleSeg rowW2) :=
  ⟨⟨rfl, rfl, rfl, rfl, rfl, rfl, rfl, rfl, rfl, by decide⟩,
    dedup_two_rows "rules" rowW1 rowW2 rfl rfl rfl rfl rfl rfl rfl rfl rfl (by decide)⟩

/-- Counterexample to claim C2 as stated: the two rows agree on all
Type/Major/Sub columns and have *different* rule ids (`"a?"` and
`"a*"`), yet the exported forest has a single rule child under the Sub
node, because both ids sanitize to the segment `"a_"` and the composite
keys collide. -/

theorem dedup_cex :
    (rowCexA.type_path = rowCexB.type_path ∧ rowCexA.type_jp = rowCexB.type_jp
      ∧ rowCexA.type_en = rowCexB.type_en ∧ rowCexA.major_path = rowCexB.major_path
      ∧ rowCexA.major_jp = rowCexB.major_jp ∧ rowCexA.major_en = rowCexB.major_en
      ∧ rowCexA.sub_path = rowCexB.sub_path ∧ rowCexA.sub_jp = rowCexB.sub_jp
      ∧ rowCexA.sub_en = rowCexB.sub_en ∧ rowCexA.id_rule ≠ rowCexB.id_rule)
    ∧ ∃ T M S,
        export_tree_json "rules" [rowCexA, rowCexB] = [("type:T", T)]
        ∧ T.children = [("major:M", M)]
        ∧ M.children = [("sub:S", S)]
        ∧ S.children.length = 1 := by
  refine ⟨⟨rfl, rfl, rfl, rfl, rfl, rfl, rfl, rfl, rfl, by decide⟩, ?_⟩
  have hb : buildRoot "rules" [rowCexA, rowCexB]
      = RNode.mk "__root__" ""
          [("type:T", RNode.mk "T" "rules/T"
            [("major:M", RNode.mk "M" "rules/T/M"
              [("sub:S", RNode.mk "S" "rules/T/M/S"
                [("rule:a_", RNode.mk "a?" "rules/T/M/S/a_" [])])])])] := rfl
  refine ⟨finalize_tree (RNode.mk "T" "rules/T"
      [("major:M", RNode.mk "M" "rules/T/M"
        [("sub:S", RNode.mk "S" "rules/T/M/S"
          [("rule:a_", RNode.mk "a?" "rules/T/M/S/a_" [])])])]),
    finalize_tree (RNode.mk "M" "rules/T/M"
      [("sub:S", RNode.mk "S" "rules/T/M/S"
        [("rule:a_", RNode.mk "a?" "rules/T/M/S/a_" [])])]),
    finalize_tree (RNode.mk "S" "rules/T/M/S"
      [("rule:a_", RNode.mk "a?" "rules/T/M/S/a_" [])]), ?_, ?_, ?_, ?_⟩
  · unfold export_tree_json
    rw [hb, finalize_children_single]
  · exact finalize_children_single _ _ _ _
  · exact finalize_children_single _ _ _ _
  · rw [finalize_children_single]
    rfl

theorem InvFrom.children_shape {base : String} {n : RNode} (h : InvFrom base n) :
    ∀ kc ∈ n.children, ChildShape base kc := by
  cases h
  assumption

theorem InvFrom.children_inv {base : String} {n : RNode} (h : InvFrom base n) :
    ∀ kc ∈ n.children, InvFrom kc.2.path kc.2 := by
  cases h
  assumption

theorem colon_split : ∀ (a : List Char) (b : List Char) (c : List Char) (d : List Char),
    (∀ x ∈ a, x ≠ ':') → (∀ x ∈ c, x ≠ ':') →
    a ++ ':' :: b = c ++ ':' :: d → a = c ∧ b = d := by
  intro a
  induction a with
  | nil =>
    intro b c d _ hc he
    cases c with
    | nil => simpa using he
    | cons y ys =>
      simp only [List.nil_append, List.cons_append, List.cons.injEq] at he
      exact absurd he.1.symm (hc y (List.mem_cons_self y ys))
  | cons x xs ih =>
    intro b c d ha hc he
    cases c with
    | nil =>
      simp only [List.cons_append, List.nil_append, List.cons.injEq] at he
      exact absurd he.1 (ha x (List.mem_cons_self x xs))
    | cons y ys =>
      simp only [List.cons_append, List.cons.injEq] at he
      obtain ⟨hxy, hrest⟩ := he
      have := ih b ys d (fun z hz => ha z (List.mem_cons_of_mem _ hz))
        (fun z hz => hc z (List.mem_cons_of_mem _ hz)) hrest
      exact ⟨by rw [hxy, this.1], this.2⟩

/-- Splitting a composite key at the colon is unambiguous when tags and
segments are colon-free. -/

theorem tag_split {t1 s1 t2 s2 : String} (h1 : noColon t1) (h2 : noColon t2)
    (he : t1 ++ ":" ++ s1 = t2 ++ ":" ++ s2) : t1 = t2 ∧ s1 = s2 := by
  have hd := congrArg String.data he
  rw [strData, strData, strData, strData] at hd
  have hd2 : t1.data ++ ':' :: s1.data = t2.data ++ ':' :: s2.data := by
    simpa using hd
  obtain ⟨ha, hb⟩ := colon_split t1.data s1.data t2.data s2.data h1 h2 hd2
  constructor
  · cases t1; cases t2; exact congrArg String.mk ha
  · cases s1; cases s2; exact congrArg String.mk hb

theorem lookupKey_mem : ∀ {l : List (String × RNode)} {k : String} {v : RNode},
    lookupKey l k = some v → (k, v) ∈ l := by
  intro l
  induction l with
  | nil => intro k v h; simp [lookupKey] at h
  | cons kc tl ih =>
    intro k v h
    obtain ⟨k0, v0⟩ := kc
    simp only [lookupKey] at h
    by_cases hk : k0 = k
    · rw [if_pos hk] at h
      cases h
      subst hk
      exact List.mem_cons_self _ _
    · rw [if_neg hk] at h
      exact List.mem_cons_of_mem _ (ih h)

theorem replaceKey_mem : ∀ {l : List (String × RNode)} {k : String} {nv : RNode}
    {kc : String × RNode}, kc ∈ replaceKey l k nv → kc = (k, nv) ∨ kc ∈ l := by
  intro l
  induction l with
  | nil => intro k nv kc h; simp [replaceKey] at h
  | cons hd tl ih =>
    intro k nv kc h
    obtain ⟨k0, v0⟩ := hd
    simp only [replaceKey] at h
    by_cases hk : k0 = k
    · rw [if_pos hk] at h
      rcases List.mem_cons.mp h with h1 | h1
      · subst hk
        exact Or.inl h1
      · exact Or.inr (List.mem_cons_of_mem _ h1)
    · rw [if_neg hk] at h
      rcases List.mem_cons.mp h with h1 | h1
      · exact Or.inr (h1 ▸ List.mem_cons_self _ _)
      · rcases ih h1 with h2 | h2
        · exact Or.inl h2
        · exact Or.inr (List.mem_cons_of_mem _ h2)

theorem insertChain_path (n : RNode) (ch : List KLP) :
    (insertChain n ch).path = n.path := by
  cases ch with
  | nil => rfl
  | cons e rest =>
    cases hl : lookupKey n.children e.key <;>
      simp [insertChain, hl, RNode.path]

theorem insertChain_label (n : RNode) (ch : List KLP) :
    (insertChain n ch).label = n.label := by
  cases ch with
  | nil => rfl
  | cons e rest =>
    cases hl : lookupKey n.children e.key <;>
      simp [insertChain, hl, RNode.label]

theorem normSlash_eq_self {s : String} (h : noBS s) : normSlash s = s := by
  have hgen : ∀ l : List Char, (∀ c ∈ l, c ≠ '\\') →
      l.map (fun c => if c = '\\' then '/' else c) = l := by
    intro l
    induction l with
    | nil => intro _; rfl
    | cons c tl ih =>
      intro hl
      simp only [List.map_cons, if_neg (hl c (List.mem_cons_self _ _)), List.cons.injEq,
        true_and]
      exact ih (fun x hx => hl x (List.mem_cons_of_mem _ hx))
  unfold normSlash
  rw [hgen s.data h]

/-- Inserting a well-formed chain preserves the path invariant: a found
child necessarily carries the chain's own path (keys split uniquely at
the colon), and a created child stores the chain path verbatim
(`normSlash` is the identity on backslash-free paths). -/

theorem insertChain_inv : ∀ (chain : List KLP) (base : String) (n : RNode),
    InvFrom base n → ChainOk base chain → InvFrom base (insertChain n chain) := by
  intro chain
  induction chain with
  | nil =>
    intro base n h _
    exact h
  | cons e rest ih =>
    intro base n hin hok
    obtain ⟨tag, seg, htag, hseg, hgood, hkey, hpath, hbspath, hrest⟩ := hok
    cases hl : lookupKey n.children e.key with
    | some c =>
      have heq : insertChain n (e :: rest)
          = .mk n.label n.path (replaceKey n.children e.key (insertChain c rest)) := by
        simp [insertChain, hl]
      rw [heq]
      have hmem : (e.key, c) ∈ n.children := lookupKey_mem hl
      obtain ⟨tag2, seg2, htag2, hseg2, hgood2, hkey2, hpath2⟩ :=
        hin.children_shape (e.key, c) hmem
      have hsp := tag_split htag2 htag (hkey2.symm.trans hkey)
      have hcp : c.path = e.path := by
        have h1 : c.path = base ++ "/" ++ seg2 := hpath2
        rw [h1, hsp.2, ← hpath]
      have hinv2 : InvFrom c.path c := hin.children_inv (e.key, c) hmem
      have hrec : InvFrom e.path (insertChain c rest) := ih e.path c (hcp ▸ hinv2) hrest
      apply InvFrom.mk
      · intro kc hkc
        rcases replaceKey_mem hkc with h1 | h1
        · subst h1
          refine ⟨tag, seg, htag, hseg, hgood, hkey, ?_⟩
          show (insertChain c rest).path = base ++ "/" ++ seg
          rw [insertChain_path, hcp, hpath]
        · exact hin.children_shape kc h1
      · intro kc hkc
        rcases replaceKey_mem hkc with h1 | h1
        · subst h1
          show InvFrom (insertChain c rest).path (insertChain c rest)
          rw [insertChain_path, hcp]
          exact hrec
        · exact hin.children_inv kc h1
    | none =>
      have heq : insertChain n (e :: rest)
          = .mk n.label n.path
              (n.children ++ [(e.key, insertChain (mkNode e.label e.path) rest)]) := by
        simp [insertChain, hl]
      rw [heq]
      have hmkpath : (insertChain (mkNode e.label e.path) rest).path = e.path := by
        rw [insertChain_path]
        show (mkNode e.label e.path).path = e.path
        simp only [mkNode, RNode.path]
        exact normSlash_eq_self hbspath
      have hnew : InvFrom e.path (insertChain (mkNode e.label e.path) rest) := by
        apply ih
        · exact InvFrom.mk _ _ (by simp [mkNode, RNode.children])
            (by simp [mkNode, RNode.children])
        · exact hrest
      apply InvFrom.mk
      · intro kc hkc
        rcases List.mem_append.mp hkc with h1 | h1
        · exact hin.children_shape kc h1
        · have h2 : kc = (e.key, insertChain (mkNode e.label e.path) rest) := by
            simpa using h1
          subst h2
          refine ⟨tag, seg, htag, hseg, hgood, hkey, ?_⟩
          show (insertChain (mkNode e.label e.path) rest).path = base ++ "/" ++ seg
          rw [hmkpath, hpath]
      · intro kc hkc
        rcases List.mem_append.mp hkc with h1 | h1
        · exact hin.children_inv kc h1
        · have h2 : kc = (e.key, insertChain (mkNode e.label e.path) rest) := by
            simpa using h1
          subst h2
          show InvFrom (insertChain (mkNode e.label e.path) rest).path
            (insertChain (mkNode e.label e.path) rest)
          rw [hmkpath]
          exact hnew

theorem pick_segment_seg (cands : List (Option String)) :
    goodSeg (pick_segment cands) ∧ noColon (pick_segment cands) := by
  obtain ⟨hne, hmem, _⟩ := pick_segment_ok cands
  refine ⟨⟨hne, fun c hc => ⟨?_, ?_⟩⟩, fun c hc => ?_⟩
  · intro he
    subst he
    exact hmem _ hc (by decide)
  · intro he
    subst he
    exact hmem _ hc (by decide)
  · intro he
    subst he
    exact hmem _ hc (by decide)

theorem noBS_of_goodSeg {s : String} (h : goodSeg s) : noBS s :=
  fun c hc => (h.2 c hc).2

theorem noBS_append {a b : String} (ha : noBS a) (hb : noBS b) : noBS (a ++ b) := by
  intro c hc
  rw [strData] at hc
  rcases List.mem_append.mp hc with h | h
  · exact ha c h
  · exact hb c h

theorem noBS_slash : noBS "/" := by
  unfold noBS
  decide

theorem append_slash_ne_empty (a b : String) : a ++ "/" ++ b ≠ "" := by
  intro h
  have hd := congrArg String.data h
  rw [strData, strData] at hd
  simp at hd

/-- Each row's `ensure_child` chain is well-formed relative to the
configured base path (when that path is backslash-free). -/

theorem rowChain_ok (pfx : String) (r : Row) (hbs : noBS pfx) :
    ChainOk pfx (rowChain pfx r) := by
  obtain ⟨hgt, hct⟩ := pick_segment_seg [r.type_path, r.type_en]
  obtain ⟨hgm, hcm⟩ := pick_segment_seg [r.major_path, r.major_en]
  obtain ⟨hgs, hcs⟩ := pick_segment_seg [r.sub_path, r.sub_en]
  obtain ⟨hgr, hcr⟩ := pick_segment_seg [r.id_rule]
  have hbs1 : noBS (typePath pfx r) :=
    noBS_append (noBS_append hbs noBS_slash) (noBS_of_goodSeg hgt)
  have hbs2 : noBS (majorPath pfx r) :=
    noBS_append (noBS_append hbs1 noBS_slash) (noBS_of_goodSeg hgm)
  have hbs3 : noBS (subPath pfx r) :=
    noBS_append (noBS_append hbs2 noBS_slash) (noBS_of_goodSeg hgs)
  have hbs4 : noBS (rulePath pfx r) :=
    noBS_append (noBS_append hbs3 noBS_slash) (noBS_of_goodSeg hgr)
  refine ⟨"type", typeSeg r, by unfold noColon; decide, hct, hgt, rfl, rfl, hbs1,
    "major", majorSeg r, by unfold noColon; decide, hcm, hgm, rfl, rfl, hbs2,
    "sub", subSeg r, by unfold noColon; decide, hcs, hgs, rfl, rfl, hbs3,
    "rule", ruleSeg r, by unfold noColon; decide, hcr, hgr, rfl, rfl, hbs4, ?_⟩
  by_cases hcap : capSeg r ≠ ""
  · rw [if_pos hcap]
    cases hic : r.id_cap with
    | none => exact absurd (by simp [capSeg, hic]) hcap
    | some v =>
      have hce : capSeg r = pick_segment [r.id_cap] := by simp [capSeg, hic]
      obtain ⟨hgc, hcc⟩ := pick_segment_seg [r.id_cap]
      refine ⟨"cap", capSeg r, by unfold noColon; decide, ?_, ?_, rfl, rfl, ?_, trivial⟩
      · rw [hce]
        exact hcc
      · rw [hce]
        exact hgc
      · exact noBS_append (noBS_append hbs4 noBS_slash)
          (by rw [hce]; exact noBS_of_goodSeg hgc)
  · rw [if_neg hcap]
    trivial

/-- The whole row loop preserves the path invariant from the empty
root. -/

theorem buildRoot_inv (pfx : String) (rows : List Row) (hbs : noBS pfx) :
    InvFrom pfx (buildRoot pfx rows) := by
  have hgen : ∀ (rs : List Row) (n : RNode), InvFrom pfx n →
      InvFrom pfx (rs.foldl (fun acc r => insertChain acc (rowChain pfx r)) n) := by
    intro rs
    induction rs with
    | nil => exact fun n h => h
    | cons r rs ih =>
      intro n h
      exact ih _ (insertChain_inv _ _ _ h (rowChain_ok pfx r hbs))
  exact hgen rows rootNode
    (InvFrom.mk _ _ (by simp [rootNode, RNode.children]) (by simp [rootNode, RNode.children]))

/-- `finalize_tree` preserves the path invariant (it only permutes
children and touches neither keys nor paths). -/

theorem finalize_inv : ∀ (k : Nat) (n : RNode), sizeOf n ≤ k →
    ∀ base, InvFrom base n → InvFrom base (finalize_tree n) := by
  intro k
  induction k with
  | zero =>
    intro n hsz
    exfalso
    cases n with
    | mk lab pth cs => simp [RNode.mk.sizeOf_spec] at hsz
  | succ k ih =>
    intro n hsz base hin
    cases n with
    | mk lab pth cs =>
      apply InvFrom.mk
      · intro kc hkc
        rw [finalize_children] at hkc
        obtain ⟨kc0, hkc0, hkc1⟩ := List.mem_map.mp hkc
        have hmem : kc0 ∈ cs := (List.perm_insertionSort childLE cs).subset hkc0
        obtain ⟨tag, seg, htag, hseg, hgood, hk, hp⟩ := hin.children_shape kc0 hmem
        subst hkc1
        refine ⟨tag, seg, htag, hseg, hgood, hk, ?_⟩
        show (finalize_tree kc0.2).path = base ++ "/" ++ seg
        rw [finalize_path]
        exact hp
      · intro kc hkc
        rw [finalize_children] at hkc
        obtain ⟨kc0, hkc0, hkc1⟩ := List.mem_map.mp hkc
        have hmem : kc0 ∈ cs := (List.perm_insertionSort childLE cs).subset hkc0
        have hsz1 : sizeOf kc0 < sizeOf cs := List.sizeOf_lt_of_mem hmem
        have hsz2 : sizeOf kc0.2 < sizeOf kc0 := by cases kc0; simp
        have hsz3 : sizeOf kc0.2 ≤ k := by
          simp only [RNode.mk.sizeOf_spec] at hsz
          omega
        subst hkc1
        show InvFrom (finalize_tree kc0.2).path (finalize_tree kc0.2)
        rw [finalize_path]
        exact ih kc0.2 hsz3 kc0.2.path (hin.children_inv kc0 hmem)

/-- Along any reachable path the invariant yields non-empty,
backslash-free stored paths that extend the parent by one sanitized
segment. -/

theorem reach_path_inv : ∀ (n m : RNode), Reach n m → InvFrom n.path n →
    n.path ≠ "" → noBS n.path →
    m.path ≠ "" ∧ noBS m.path ∧
      (∀ kc ∈ m.children, ∃ seg, goodSeg seg ∧ kc.2.path = m.path ++ "/" ++ seg) := by
  intro n m h
  induction h with
  | refl n =>
    intro hin hne hbs
    refine ⟨hne, hbs, ?_⟩
    intro kc hkc
    obtain ⟨tag, seg, _, _, hgood, _, hp⟩ := hin.children_shape kc hkc
    exact ⟨seg, hgood, hp⟩
  | @step n m kc hm hr ih =>
    intro hin hne hbs
    obtain ⟨tag, seg, _, _, hgood, _, hp⟩ := hin.children_shape kc hm
    have hne2 : kc.2.path ≠ "" := by
      rw [hp]
      exact append_slash_ne_empty _ _
    have hbs2 : noBS kc.2.path := by
      rw [hp]
      exact noBS_append (noBS_append hbs noBS_slash) (noBS_of_goodSeg hgood)
    exact ih (hin.children_inv kc hm) hne2 hbs2

/-- Claim C8: in the exported forest (for a backslash-free configured
base path), every top-level node's path is the base path joined with one
sanitized segment, every deeper node's path is its parent's path joined
with "/" and exactly one sanitized segment, and no reachable node's path
is empty or contains a backslash. -/

theorem path_invariant (pfx : String) (rows : List Row) (hbs : noBS pfx) :
    ∀ kc ∈ export_tree_json pfx rows,
      (∃ seg, goodSeg seg ∧ kc.2.path = pfx ++ "/" ++ seg)
      ∧ ∀ m, Reach kc.2 m →
          m.path ≠ "" ∧ noBS m.path ∧
            (∀ kc2 ∈ m.children, ∃ seg, goodSeg seg ∧ kc2.2.path = m.path ++ "/" ++ seg) := by
  intro kc hkc
  have hroot : InvFrom pfx (finalize_tree (buildRoot pfx rows)) :=
    finalize_inv (sizeOf (buildRoot pfx rows)) _ (Nat.le_refl _) pfx
      (buildRoot_inv pfx rows hbs)
  have hkc2 : kc ∈ (finalize_tree (buildRoot pfx rows)).children := hkc
  obtain ⟨tag, seg, _, _, hgood, _, hp⟩ := hroot.children_shape kc hkc2
  have hinv : InvFrom kc.2.path kc.2 := hroot.children_inv kc hkc2
  refine ⟨⟨seg, hgood, hp⟩, ?_⟩
  intro m hm
  apply reach_path_inv kc.2 m hm hinv
  · rw [hp]
    exact append_slash_ne_empty _ _
  · rw [hp]
    exact noBS_append (noBS_append hbs noBS_slash) (noBS_of_goodSeg hgood)

/-- Witness for `path_invariant` at a concrete base path and row
list. -/

theorem path_invariant_witness :
    noBS "rules" ∧
      (∀ kc ∈ export_tree_json "rules" [rowW1],
        (∃ seg, goodSeg seg ∧ kc.2.path = "rules" ++ "/" ++ seg)
        ∧ ∀ m, Reach kc.2 m →
            m.path ≠ "" ∧ noBS m.path ∧
              (∀ kc2 ∈ m.children, ∃ seg, goodSeg seg ∧ kc2.2.path = m.path ++ "/" ++ seg)) :=
  ⟨by unfold noBS; decide, path_invariant "rules" [rowW1] (by unfold noBS; decide)⟩

theorem sizeOfJList_pos (l : List JNode) : 1 ≤ sizeOf l := by
  cases l with
  | nil => simp
  | cons a t => simp only [List.cons.sizeOf_spec]; omega

theorem sizeOfJList_append (l1 l2 : List JNode) :
    sizeOf (l1 ++ l2) + 1 = sizeOf l1 + sizeOf l2 := by
  induction l1 with
  | nil => simp only [List.nil_append, List.nil.sizeOf_spec]; omega
  | cons a tl ih => simp only [List.cons_append, List.cons.sizeOf_spec]; omega

theorem sizeOfJNode_children (n : JNode) : sizeOf n.children < sizeOf n := by
  cases n with
  | mk l p b c => simp [JNode.children]

theorem IsMarked.flag {fs : String → Bool} {bd mdName : String} {n : JNode}
    (h : IsMarked fs bd mdName n) : n.hasBody = bodyFlag fs bd mdName n.path := by
  cases h
  assumption

theorem IsMarked.child {fs : String → Bool} {bd mdName : String} {n : JNode}
    (h : IsMarked fs bd mdName n) : ∀ c ∈ n.children, IsMarked fs bd mdName c := by
  cases h
  assumption

theorem bodyFlag_iff (fs : String → Bool) (bd mdName pth : String) :
    bodyFlag fs bd mdName pth = true ↔
      (pyStrip pth ≠ "" ∧ fs (jmdPath bd (pyStrip pth) mdName) = true) := by
  unfold bodyFlag
  by_cases h : pyStrip pth = ""
  · rw [if_pos h]
    simp [h]
  · rw [if_neg h]
    simp [h]

/-- Marking produces consistently marked nodes. -/

theorem markNode_isMarked (fs : String → Bool) (bd mdName : String) :
    ∀ (k : Nat) (n : JNode), sizeOf n ≤ k → IsMarked fs bd mdName (markNode fs bd mdName n) := by
  intro k
  induction k with
  | zero =>
    intro n hsz
    exfalso
    cases n with
    | mk lab pth hb cs => simp [JNode.mk.sizeOf_spec] at hsz
  | succ k ih =>
    intro n hsz
    cases n with
    | mk lab pth hb cs =>
      rw [markNode]
      apply IsMarked.mk
      · simp [JNode.hasBody, JNode.path]
      · intro c hc
        simp only [JNode.children] at hc
        obtain ⟨c0, hc0, hc1⟩ := List.mem_map.mp hc
        have hmem : c0.1 ∈ cs := c0.2
        have hsz1 : sizeOf c0.1 < sizeOf cs := List.sizeOf_lt_of_mem hmem
        have hsz2 : sizeOf c0.1 ≤ k := by
          simp only [JNode.mk.sizeOf_spec] at hsz
          omega
        rw [← hc1]
        exact ih c0.1 hsz2

/-- Consistent marking is hereditary along reachability. -/

theorem isMarked_reach {fs : String → Bool} {bd mdName : String} :
    ∀ {n m : JNode}, JReach n m → IsMarked fs bd mdName n → IsMarked fs bd mdName m := by
  intro n m h
  induction h with
  | refl n => exact fun h => h
  | step hm hr ih => exact fun h => ih (h.child _ hm)

/-- Over consistently marked stacks, the target collection is exactly
the `has_body`-filtered projection of the iteration order. -/

theorem collect_eq (fs : String → Bool) (bd mdName : String) :
    ∀ (k : Nat) (stack : List JNode), sizeOf stack ≤ k →
      (∀ n ∈ stack, IsMarked fs bd mdName n) →
      collectLoop fs bd mdName stack
        = (iterLoop stack).filterMap
            (fun n => if n.hasBody = true
              then some (n, jmdPath bd (pyStrip n.path) mdName) else none) := by
  intro k
  induction k with
  | zero =>
    intro stack hsz
    exfalso
    have := sizeOfJList_pos stack
    omega
  | succ k ih =>
    intro stack hsz hmk
    cases stack with
    | nil => simp [collectLoop, iterLoop]
    | cons n st =>
      rw [collectLoop, iterLoop, List.filterMap_cons]
      have hn := hmk n (List.mem_cons_self _ _)
      have hrec : collectLoop fs bd mdName (n.children ++ st)
          = (iterLoop (n.children ++ st)).filterMap
              (fun n => if n.hasBody = true
                then some (n, jmdPath bd (pyStrip n.path) mdName) else none) := by
        apply ih
        · have h1 := sizeOfJList_append n.children st
          have h2 := sizeOfJNode_children n
          simp only [List.cons.sizeOf_spec] at hsz
          omega
        · intro x hx
          rcases List.mem_append.mp hx with h1 | h1
          · exact hn.child x h1
          · exact hmk x (List.mem_cons_of_mem _ h1)
      rw [hrec]
      have hflag := hn.flag
      unfold collectBody
      by_cases h1 : pyStrip n.path = ""
      · have hb : n.hasBody = false := by
          rw [hflag]
          unfold bodyFlag
          rw [if_pos h1]
        rw [if_pos h1, hb]
        simp
      · by_cases h2 : fs (jmdPath bd (pyStrip n.path) mdName) = true
        · have hb : n.hasBody = true := by
            rw [hflag]
            exact (bodyFlag_iff fs bd mdName n.path).mpr ⟨h1, h2⟩
          rw [if_neg h1, if_pos h2, hb]
          simp
        · have hb : n.hasBody = false := by
            rw [hflag]
            unfold bodyFlag
            rw [if_neg h1]
            simpa using h2
          rw [if_neg h1, if_neg h2, hb]
          simp

/-- Claim C6: after `mark_and_collect_md_targets`, a node's `has_body`
is true iff its path is non-blank and a regular file named `md_name`
exists at `build_dir` joined with that path (an absent body document
just yields `has_body = false`); the returned targets are exactly the
`(node, md_path)` pairs of the nodes marked true, in iteration
order. -/

theorem mark_md_targets (fs : String → Bool) (bd mdName : String) (tree : List JNode) :
    (∀ m : JNode, (∃ r ∈ (mark_and_collect_md_targets fs bd mdName tree).1, JReach r m) →
      (m.hasBody = true ↔
        (pyStrip m.path ≠ "" ∧ fs (jmdPath bd (pyStrip m.path) mdName) = true)))
    ∧ (mark_and_collect_md_targets fs bd mdName tree).2
        = (iter_nodes (mark_and_collect_md_targets fs bd mdName tree).1).filterMap
            (fun n => if n.hasBody = true
              then some (n, jmdPath bd (pyStrip n.path) mdName) else none) := by
  have hmarked : ∀ r ∈ (mark_and_collect_md_targets fs bd mdName tree).1,
      IsMarked fs bd mdName r := by
    intro r hr
    have hr2 : r ∈ tree.map (markNode fs bd mdName) := hr
    obtain ⟨n0, _, hn0⟩ := List.mem_map.mp hr2
    rw [← hn0]
    exact markNode_isMarked fs bd mdName (sizeOf n0) n0 (Nat.le_refl _)
  constructor
  · intro m hm
    obtain ⟨r, hr, hreach⟩ := hm
    have hmm := isMarked_reach hreach (hmarked r hr)
    rw [hmm.flag]
    exact bodyFlag_iff fs bd mdName m.path
  · show collectLoop fs bd mdName (tree.map (markNode fs bd mdName)).reverse = _
    have hcond : ∀ n ∈ (tree.map (markNode fs bd mdName)).reverse,
        IsMarked fs bd mdName n := by
      intro n hn
      exact hmarked n (List.mem_reverse.mp hn)
    rw [collect_eq fs bd mdName (sizeOf (tree.map (markNode fs bd mdName)).reverse) _
      (Nat.le_refl _) hcond]
    rfl

/-- Witness for `mark_md_targets` at a concrete oracle and tree. -/

theorem mark_md_targets_witness :
    (∃ r ∈ (mark_and_collect_md_targets (fun _ => false) "b" "body.md"
        [JNode.mk "L" "p" true []]).1, JReach r (JNode.mk "L" "p" false []))
    ∧ ((JNode.mk "L" "p" false []).hasBody = true ↔
        (pyStrip (JNode.mk "L" "p" false []).path ≠ ""
          ∧ (fun _ => false) (jmdPath "b" (pyStrip (JNode.mk "L" "p" false []).path)
              "body.md") = true)) := by
  have hm : (mark_and_collect_md_targets (fun _ => false) "b" "body.md"
      [JNode.mk "L" "p" true []]).1 = [JNode.mk "L" "p" false []] := by
    show List.map _ _ = _
    rw [List.map_cons, List.map_nil, markNode]
    simp [bodyFlag, pyStrip, jmdPath]
  have hreach : ∃ r ∈ (mark_and_collect_md_targets (fun _ => false) "b" "body.md"
      [JNode.mk "L" "p" true []]).1, JReach r (JNode.mk "L" "p" false []) := by
    rw [hm]
    exact ⟨_, List.mem_cons_self _ _, JReach.refl _⟩
  exact ⟨hreach, (mark_md_targets (fun _ => false) "b" "body.md"
    [JNode.mk "L" "p" true []]).1 (JNode.mk "L" "p" false []) hreach⟩
